import Mathlib

/-!
# professioncost: the reagent cost model of `main.go`

A shallow embedding of the cost model of `src/main.go`: the two reagent parsers,
the step closure of `main` that prices one guide line, and the loop that folds
the lines of a profession into its `Result`.

* Go's `int` is a 64-bit two's complement integer: values are `Int`s and every
  arithmetic operation wraps explicitly (`wrapInt`).
* A slice is a `List`; indexing a slice out of range panics, which the
  embedding renders as `none`.
* The journal data (`ItemByName` followed by `Market`) is a lookup from an item
  name to its market price, `none` when `ItemByName` returns an error.
* A string is the list of its characters, and the three regular expressions
  are matched with Go's leftmost-first semantics.
* A finite non-negative `float64` is its number of units of `2^-1074`, and
  `strconv.ParseFloat` and the product `stacksf * 20` round to nearest, ties to
  even.

Definitions come first, then the lemmas about them, then one theorem per claim.
-/

namespace ProfessionCost

/-! ## Go `int` arithmetic -/

/-- Wrap an integer into the range of a 64-bit Go `int`. -/
def wrapInt (x : Int) : Int := (x + 2 ^ 63) % 2 ^ 64 - 2 ^ 63

/-- Go `a + b` on `int`. -/
def goAdd (a b : Int) : Int := wrapInt (a + b)

/-- Go `a * b` on `int`. -/
def goMul (a b : Int) : Int := wrapInt (a * b)

/-- Go `a / b` on `int` (`b` non-zero): the quotient truncated toward zero. -/
def goDiv (a b : Int) : Int := wrapInt (Int.tdiv a b)

/-! ## Data model -/

/-- Final result of a profession and its cost (`type Result struct`). -/
structure Result where
  Name : String
  Low : Int
  High : Int
  Median : Int
  Average : Int
  NotFound : List String
deriving DecidableEq

/-- A reagent: its name and the count (`type Reagent struct`). -/
structure Reagent where
  Name : String
  Count : Int
deriving DecidableEq

/-- A reagent parser (`type ReagentParser func(string) [][]Reagent`); `none` is a
run-time panic of the parser. -/
abbrev ReagentParser := String → Option (List (List Reagent))

/-- The journal data as the step loop uses it: `jdata.ItemByName(name)` followed by
`entry.Market()`; `none` when `ItemByName` returns the error `Not found`. -/
abbrev JournalData := String → Option Int

/-! ## The step closure of `main` (lines 263-286) -/

/-- The inner loop `for _, reagent := range reagents` (lines 268-275), acting on
the pair `(subcosts[i], result.NotFound)`. A reagent that is found overwrites
`subcosts[i]`; one that is not found is appended to `result.NotFound`. -/
def reagentLoop (jdata : JournalData) : List Reagent → Int × List String → Int × List String
  | [], st => st
  | reagent :: rest, st =>
    match jdata reagent.Name with
    | none => reagentLoop jdata rest (st.1, st.2 ++ [reagent.Name])
    | some market => reagentLoop jdata rest (goMul reagent.Count market, st.2)

/-- The outer loop `for i, reagents := range reagentsAll` (lines 267-276): the
slice `subcosts`, created zeroed by `make`, and the `result.NotFound` it leaves. -/
def groupLoop (jdata : JournalData) : List (List Reagent) → List String → List Int × List String
  | [], notFound => ([], notFound)
  | reagents :: rest, notFound =>
    let st := reagentLoop jdata reagents (0, notFound)
    let r := groupLoop jdata rest st.2
    (st.1 :: r.1, r.2)

/-- The value `subcosts[i]` holds after the loops, for the group `reagents`. -/
def groupCost (jdata : JournalData) (reagents : List Reagent) : Int :=
  (reagentLoop jdata reagents (0, [])).1

/-- Go `sort.Ints`: sorts a slice of ints in increasing order. -/
def sortInts (a : List Int) : List Int := List.insertionSort (· ≤ ·) a

/-- The three values a step adds to `result.Low`, `result.High`, `result.Median`. -/
structure StepStats where
  low : Int
  high : Int
  median : Int
deriving DecidableEq

/-- Lines 279-285 on the sorted `subcosts`: the values added to the running result.
The index `int(math.Ceil(float64(len(subcosts)/2.0)))` is `len(subcosts)/2`: the
division is Go's integer division, so the conversion and `Ceil` change nothing.
An index out of range panics (`none`). -/
def stepStats (subcosts : List Int) : Option StepStats :=
  match subcosts[0]?, subcosts[subcosts.length - 1]? with
  | some lo, some hi =>
    if subcosts.length > 2 then
      match subcosts[subcosts.length / 2]? with
      | some mid => some ⟨lo, hi, mid⟩
      | none => none
    else
      some ⟨lo, hi, goDiv (goAdd lo hi) 2⟩
  | _, _ => none

/-- The body of the closure passed to `Each` (lines 264-285), after the parser has
returned `reagentsAll`: the new value of `result`, or `none` when it panics. -/
def stepResolver (jdata : JournalData) (result : Result)
    (reagentsAll : List (List Reagent)) : Option Result :=
  let looped := groupLoop jdata reagentsAll result.NotFound
  match stepStats (sortInts looped.1) with
  | some st =>
    some { Name := result.Name
           Low := goAdd result.Low st.low
           High := goAdd result.High st.high
           Median := goAdd result.Median st.median
           Average := result.Average
           NotFound := looped.2 }
  | none => none

/-- The loop `el.Find("li").Each(...)` over the texts of the guide's list items. -/
def eachLi (parser : ReagentParser) (jdata : JournalData) : Result → List String → Option Result
  | result, [] => some result
  | result, s :: rest =>
    match parser s with
    | none => none
    | some reagentsAll =>
      match stepResolver jdata result reagentsAll with
      | none => none
      | some r => eachLi parser jdata r rest

/-- One profession (lines 254-290): the result appended to `results`. -/
def professionResult (parser : ReagentParser) (jdata : JournalData) (name : String)
    (lis : List String) : Option Result :=
  match eachLi parser jdata ⟨name, 0, 0, 0, 0, []⟩ lis with
  | none => none
  | some r => some { r with Average := goDiv (goAdd r.Low r.High) 2 }

/-- The names of the reagents of a parsed line that the journal data does not
hold, in the order the loops meet them. -/
def absentNames (jdata : JournalData) (reagentsAll : List (List Reagent)) : List String :=
  (reagentsAll.flatten.filter (fun reagent => (jdata reagent.Name).isNone)).map Reagent.Name

/-! ## The summing resolver

The step closure with `subcosts[i] += ...` in place of the assignment of line
273, everything else as in `main`: the resolver the specification describes
("total cost = sum over its Reagents of count × priceOf(name), 0 if not found,
recording the miss"). -/

/-- The inner loop of the summing resolver. -/
def reagentLoopSum (jdata : JournalData) :
    List Reagent → Int × List String → Int × List String
  | [], st => st
  | reagent :: rest, st =>
    match jdata reagent.Name with
    | none => reagentLoopSum jdata rest (st.1, st.2 ++ [reagent.Name])
    | some market =>
      reagentLoopSum jdata rest (goAdd st.1 (goMul reagent.Count market), st.2)

/-- The outer loop of the summing resolver. -/
def groupLoopSum (jdata : JournalData) :
    List (List Reagent) → List String → List Int × List String
  | [], notFound => ([], notFound)
  | reagents :: rest, notFound =>
    let st := reagentLoopSum jdata reagents (0, notFound)
    let r := groupLoopSum jdata rest st.2
    (st.1 :: r.1, r.2)

/-- The cost the summing resolver gives a group: the sum over its reagents of
count times market price, a reagent that is not found counting for zero. -/
def groupCostSum (jdata : JournalData) (reagents : List Reagent) : Int :=
  (reagentLoopSum jdata reagents (0, [])).1

/-- The summing resolver: `stepResolver` over `groupLoopSum`. -/
def stepResolverSum (jdata : JournalData) (result : Result)
    (reagentsAll : List (List Reagent)) : Option Result :=
  let looped := groupLoopSum jdata reagentsAll result.NotFound
  match stepStats (sortInts looped.1) with
  | some st =>
    some { Name := result.Name
           Low := goAdd result.Low st.low
           High := goAdd result.High st.high
           Median := goAdd result.Median st.median
           Average := result.Average
           NotFound := looped.2 }
  | none => none

/-! ## The regular expressions

A Go string that is valid UTF-8 is the list of its characters. The three
patterns of `main.go` are matched as Go's `regexp` does: the leftmost match, and
at one position the first match in backtracking order (a greedy operator tries
the longest first, a lazy one the shortest first); `.` is any character but a
newline and `\d` an ASCII digit. -/

/-- The tail `(.*?)\]` of `itemRe` and `inscriptItemRet`, just after the `[`: the
lazy `.*?` stops at the first `]`, and cannot cross a newline. Returns the
capture and what follows the match. -/
def lazyToBracket : List Char → Option (List Char × List Char)
  | [] => none
  | c :: cs =>
    if c = ']' then some ([], cs)
    else if c = '\n' then none
    else
      match lazyToBracket cs with
      | some (body, rest) => some (c :: body, rest)
      | none => none

/-- The pattern `\[(.*?)\]` anchored at the head of the input. -/
def matchBracketed : List Char → Option (List Char × List Char)
  | [] => none
  | c :: cs => if c = '[' then lazyToBracket cs else none

/-- The pattern `(\d+) x ` anchored at the head of the input. The greedy `\d+` can
only end where the digits end, a shorter run being followed by a digit and not
by the blank. Returns the capture and what follows. -/
def matchCountPrefix (s : List Char) : Option (List Char × List Char) :=
  match s.takeWhile Char.isDigit, s.dropWhile Char.isDigit with
  | [], _ => none
  | d :: ds, ' ' :: 'x' :: ' ' :: rest => some (d :: ds, rest)
  | _, _ => none

/-- The pattern `itemRe`, `(((\d+) x )?\[(.*?)\])`, anchored at the head of the
input: the optional group is tried first, then skipped. Returns group 3 (empty
when the optional group takes no part), group 4, and what follows the match. -/
def matchItem (s : List Char) : Option (List Char × List Char × List Char) :=
  let counted :=
    match matchCountPrefix s with
    | some (digits, rest) =>
      match matchBracketed rest with
      | some (name, rest') => some (digits, name, rest')
      | none => none
    | none => none
  match counted with
  | some m => some m
  | none =>
    match matchBracketed s with
    | some (name, rest) => some ([], name, rest)
    | none => none

/-- `itemRe.FindAllStringSubmatch(s, -1)`, as the pairs (group 3, group 4) of the
successive non-overlapping matches. The first argument bounds the number of
positions tried; the length of the input is enough (`findAllItems_fuel`). -/
def findAllItems : Nat → List Char → List (List Char × List Char)
  | 0, _ => []
  | fuel + 1, s =>
    match matchItem s with
    | some (digits, name, rest) => (digits, name) :: findAllItems fuel rest
    | none =>
      match s with
      | [] => []
      | _ :: cs => findAllItems fuel cs

/-- `inscriptItemRet.FindAllStringSubmatch(list, -1)`, as the captures of the
successive matches of `\[(.*?)\]`. -/
def findAllBracketed : Nat → List Char → List (List Char)
  | 0, _ => []
  | fuel + 1, s =>
    match matchBracketed s with
    | some (name, rest) => name :: findAllBracketed fuel rest
    | none =>
      match s with
      | [] => []
      | _ :: cs => findAllBracketed fuel cs

/-- The character class `[0-9.]`. -/
def isNumDot (c : Char) : Bool := c.isDigit || c = '.'

/-- The literal `following: ` of `inscriptRe`. -/
def followingLit : List Char := "following: ".toList

/-- The tail `.*following: (.*)` of `inscriptRe`: the greedy `.*` gives back
characters until the literal matches, so the literal is matched at its last
occurrence before the end of the line; group 3 is the rest of that line. -/
def afterLastFollowing : List Char → Option (List Char)
  | [] => none
  | c :: cs =>
    if c = '\n' then none
    else
      match afterLastFollowing cs with
      | some list => some list
      | none =>
        if followingLit.isPrefixOf (c :: cs) then
          some (((c :: cs).drop followingLit.length).takeWhile (fun x => x ≠ '\n'))
        else none

/-- The pattern `inscriptRe`, `(([0-9.]+) stacks.*following: (.*))`, anchored at the
head of the input. Returns groups 2 and 3. -/
def matchInscript (s : List Char) : Option (List Char × List Char) :=
  match s.takeWhile isNumDot, s.dropWhile isNumDot with
  | [], _ => none
  | d :: ds, ' ' :: 's' :: 't' :: 'a' :: 'c' :: 'k' :: 's' :: rest =>
    match afterLastFollowing rest with
    | some list => some (d :: ds, list)
    | none => none
  | _, _ => none

/-- The first element of `inscriptRe.FindAllStringSubmatch(s, -1)`: the leftmost
match, `none` when the pattern matches nowhere. -/
def findInscript : List Char → Option (List Char × List Char)
  | [] => none
  | c :: cs =>
    match matchInscript (c :: cs) with
    | some m => some m
    | none => findInscript cs

/-! ## Library conversions -/

/-- The value of a string of decimal digits. -/
def decimalValue (s : List Char) : Nat :=
  s.foldl (fun acc c => 10 * acc + (c.toNat - '0'.toNat)) 0

/-- The optional sign `strconv.ParseInt` picks off: whether it is `-`, and the rest. -/
def signAndBody (s : List Char) : Bool × List Char :=
  match s with
  | '+' :: t => (false, t)
  | '-' :: t => (true, t)
  | _ => (false, s)

/-- The library call `to.Int64` on a string: `strconv.ParseInt(s, 10, 64)` with the
error dropped, so `0` on a syntax error and the nearest bound when the value
does not fit 64 bits. -/
def toInt64 (s : List Char) : Int :=
  if (signAndBody s).2 = [] ∨ (signAndBody s).2.all Char.isDigit = false then 0
  else if (signAndBody s).1 = true then
    if decimalValue (signAndBody s).2 > 2 ^ 63 then -(2 ^ 63)
    else -(decimalValue (signAndBody s).2 : Int)
  else
    if decimalValue (signAndBody s).2 ≥ 2 ^ 63 then 2 ^ 63 - 1
    else (decimalValue (signAndBody s).2 : Int)

/-- Go `strings.Trim(s, " ")`: the leading and trailing blanks removed. -/
def trimSpaces (s : List Char) : List Char :=
  ((s.dropWhile (fun c => c = ' ')).reverse.dropWhile (fun c => c = ' ')).reverse

/-! ### IEEE 754 binary64

A finite non-negative `float64` is a whole number of units of `2^-1074` (the
smallest subnormal): a number `m * 2^t` of units with `m < 2^53`. The functions
below work on that number of units. -/

/-- The number of units of `2^-1074` in `1.0`. -/
def float64One : Nat := 2 ^ 1074

/-- The number of units of `2^-1074` in `2^1024`, the first value out of range. -/
def float64Overflow : Nat := 2 ^ 2098

/-- The number of binary digits of `n`, by halving at most `fuel` times. -/
def bitLengthAux : Nat → Nat → Nat
  | 0, _ => 0
  | fuel + 1, n => if n = 0 then 0 else bitLengthAux fuel (n / 2) + 1

/-- The number of binary digits of `n`. -/
def bitLength (n : Nat) : Nat := bitLengthAux n n

/-- The quotient `n / d` rounded to the nearest natural number, ties to even. -/
def roundHalfEven (n d : Nat) : Nat :=
  if 2 * (n % d) > d ∨ (2 * (n % d) = d ∧ (n / d) % 2 = 1) then n / d + 1 else n / d

/-- Round `n / d` units to the nearest `float64` (ties to even): the units are
rounded to a multiple of `2^t` that keeps 53 significant bits. `none` when the
rounded value is `2^1024` or more, which the format holds as `+Inf`. -/
def roundUnits (n d : Nat) : Option Nat :=
  let t := bitLength (n / d) - 53
  let u := roundHalfEven n (d * 2 ^ t) * 2 ^ t
  if u ≥ float64Overflow then none else some u

/-- Go `strconv.ParseFloat(s, 64)` on a string of digits and dots, as `[0-9.]+`
captures: digits, then at most one dot followed by digits, with a digit
somewhere. The result is the nearest `float64` in units of `2^-1074`, and `none`
when `ParseFloat` returns an error (no digit, a second dot, or a value out of
range). -/
def parseFloat64 (s : List Char) : Option Nat :=
  if (s.dropWhile Char.isDigit = [] ∨ (s.dropWhile Char.isDigit).head? = some '.') ∧
      (s.dropWhile Char.isDigit).tail.all Char.isDigit = true ∧
      (s.takeWhile Char.isDigit ≠ [] ∨ (s.dropWhile Char.isDigit).tail ≠ []) then
    roundUnits
      (decimalValue (s.takeWhile Char.isDigit ++ (s.dropWhile Char.isDigit).tail) * float64One)
      (10 ^ (s.dropWhile Char.isDigit).tail.length)
  else none

/-- The rational number a decimal numeral `digits[.digits]` denotes. -/
def decimalNumber (s : List Char) : ℚ :=
  (decimalValue (s.takeWhile Char.isDigit ++ (s.dropWhile Char.isDigit).tail) : ℚ) /
    10 ^ (s.dropWhile Char.isDigit).tail.length

/-- Go `int(math.Ceil(stacksf * 20))` for a finite non-negative `stacksf` of `u`
units: the product rounded to `float64`, its ceiling, and the conversion to
`int`. A ceiling that does not fit an `int` (or `+Inf`) converts to the
smallest `int`, as the conversion instruction of amd64 gives. -/
def ceilTimes20 (u : Nat) : Int :=
  match roundUnits (20 * u) 1 with
  | none => -(2 ^ 63)
  | some p =>
    if (p + (float64One - 1)) / float64One < 2 ^ 63 then
      Int.ofNat ((p + (float64One - 1)) / float64One)
    else -(2 ^ 63)

/-! ## The two parsers -/

/-- A generic parser for wowprofessions.com (`func ParseGeneric`). -/
def ParseGeneric (s : String) : List (List Reagent) :=
  (findAllItems s.length s.data).map fun submatches =>
    [⟨String.mk (trimSpaces submatches.2),
      if toInt64 submatches.1 = 0 then 1 else toInt64 submatches.1⟩]

/-- An inscription parser for wowprofessions.com (`func ParseInscription`); `none`
is the panic of `allmatches[0]` on a line the pattern does not match. -/
def ParseInscription (s : String) : Option (List (List Reagent)) :=
  match findInscript s.data with
  | none => none
  | some (stacksText, list) =>
    match parseFloat64 stacksText with
    | none => some []
    | some stacksf =>
      some ((findAllBracketed list.length list).map fun name =>
        [⟨String.mk name, ceilTimes20 stacksf⟩])

/-- The parser of every profession but Inscription, as a `ReagentParser`. -/
def genericParser : ReagentParser := fun s => some (ParseGeneric s)

/-! ## Sample journal data -/

/-- The journal data `{Widget: 10}`. -/
def journalWidget : JournalData := fun name => if name = "Widget" then some 10 else none

/-- The journal data `{A: 5, B: 7}`. -/
def journalAB : JournalData := fun name =>
  if name = "A" then some 5 else if name = "B" then some 7 else none

/-! ## Tokens of the generic dialect -/

/-- The text of one token of `itemRe`: `<digits> x [name]`, or `[name]` when there are no digits. -/
def itemToken (digits name : List Char) : List Char :=
  (if digits = [] then [] else digits ++ [' ', 'x', ' ']) ++ '[' :: (name ++ [']'])

/-- The count prefix of a token: `<digits> x `, or nothing. -/
def countText (digits : List Char) : List Char :=
  if digits = [] then [] else digits ++ [' ', 'x', ' ']

/-- The text ends with a digit. -/
def endsWithDigit (l : List Char) : Bool :=
  match l.getLast? with
  | some c => c.isDigit
  | none => false

/-- The text ends with a digit followed by ` x `. -/
def endsWithCount (l : List Char) : Bool :=
  match l.reverse with
  | ' ' :: 'x' :: ' ' :: c :: _ => c.isDigit
  | _ => false

/-- A stretch of a line of the generic dialect: text without `[`, then one
token `<digits> x [name]` or `[name]`. -/
structure ItemSegment where
  before : List Char
  digits : List Char
  name : List Char

/-- The characters of a stretch. -/
def ItemSegment.text (g : ItemSegment) : List Char :=
  g.before ++ itemToken g.digits g.name

/-- The stretch is well formed: no `[` before the token, the count made of
digits, the name free of `]` and of newlines, the count the whole run of digits
before ` x ` (a bare `[name]` is not preceded by `<digit> x `), and its value
below `2^63`. -/
def ItemSegment.Valid (g : ItemSegment) : Prop :=
  '[' ∉ g.before ∧ (∀ c ∈ g.digits, c.isDigit = true) ∧ ']' ∉ g.name ∧ '\n' ∉ g.name ∧
  (if g.digits = [] then endsWithCount g.before = false
    else endsWithDigit g.before = false) ∧
  decimalValue g.digits < 2 ^ 63

instance (g : ItemSegment) : Decidable g.Valid := by
  unfold ItemSegment.Valid
  infer_instance

/-! ## Lines of the stack-count dialect -/

/-- The literal ` stacks` of `inscriptRe`. -/
def stacksLit : List Char := [' ', 's', 't', 'a', 'c', 'k', 's']

/-- The text of a list of bracketed names: before each name, text without `[`. -/
def bracketedText (names : List (List Char × List Char)) : List Char :=
  (names.map (fun g => g.1 ++ '[' :: (g.2 ++ [']']))).flatten

/-! ## Occurrences of the patterns in a line -/

/-- The successive occurrences of a pattern in a text, as `FindAll` reports them:
scanning from the left, the first position where the pattern matches gives the
first occurrence, and the scan resumes where that match ends. `P s a r` says
that the pattern matches at the head of `s`, with captures `a`, leaving `r`. -/
inductive Occurrences {α : Type} (P : List Char → α → List Char → Prop) :
    List Char → List α → Prop
  | done : (∀ a r, ¬ P [] a r) → Occurrences P [] []
  | here (s : List Char) (a : α) (r : List Char) (ts : List α) :
      P s a r → Occurrences P r ts → Occurrences P s (a :: ts)
  | skip (c : Char) (cs : List Char) (ts : List α) :
      (∀ a r, ¬ P (c :: cs) a r) → Occurrences P cs ts → Occurrences P (c :: cs) ts

/-- A token of the generic dialect at the head of `s`: `<digits> x [name]` or
`[name]`, the name up to the first `]`, with `r` left after it. -/
def ItemAt (s : List Char) (a : List Char × List Char) (r : List Char) : Prop :=
  s = itemToken a.1 a.2 ++ r ∧ (∀ c ∈ a.1, c.isDigit = true) ∧ ']' ∉ a.2 ∧ '\n' ∉ a.2

/-- A bracketed name `[name]` at the head of `s`, the name up to the first `]`,
with `r` left after it. -/
def BracketAt (s : List Char) (name : List Char) (r : List Char) : Prop :=
  s = '[' :: (name ++ ']' :: r) ∧ ']' ∉ name ∧ '\n' ∉ name

/-- The group `ParseGeneric` builds from one match of `itemRe`. -/
def itemGroup (a : List Char × List Char) : List Reagent :=
  [⟨String.mk (trimSpaces a.2), if toInt64 a.1 = 0 then 1 else toInt64 a.1⟩]

/-- The pattern `inscriptRe` at the head of `s`, with groups 2 and 3: a run of
digits and dots, ` stacks`, text, the last `following: ` of the line, and the
rest of the line. -/
def InscriptAt (s : List Char) (a : List Char × List Char) : Prop :=
  ∃ mid rest, s = a.1 ++ (stacksLit ++ (mid ++ (followingLit ++ (a.2 ++ rest)))) ∧
    a.1 ≠ [] ∧ (∀ c ∈ a.1, isNumDot c = true) ∧ '\n' ∉ mid ∧ '\n' ∉ a.2 ∧
    (rest = [] ∨ rest.head? = some '\n') ∧ ¬ followingLit <:+: a.2

/-- The leftmost occurrence of a pattern in a text: `P s a` says that the pattern
matches at the head of `s` with captures `a`. -/
inductive FirstOccurrence {α : Type} (P : List Char → α → Prop) : List Char → α → Prop
  | here (s : List Char) (a : α) : P s a → FirstOccurrence P s a
  | skip (c : Char) (cs : List Char) (a : α) :
      (∀ a', ¬ P (c :: cs) a') → FirstOccurrence P cs a → FirstOccurrence P (c :: cs) a

/-! ## Go `int` arithmetic: basic facts -/

theorem wrapInt_of_range {x : Int} (h1 : -(2 ^ 63) ≤ x) (h2 : x < 2 ^ 63) : wrapInt x = x := by
  unfold wrapInt
  rw [Int.emod_eq_of_lt (by omega) (by omega)]
  omega

theorem wrapInt_range (x : Int) : -(2 ^ 63) ≤ wrapInt x ∧ wrapInt x < 2 ^ 63 := by
  unfold wrapInt
  have h1 := Int.emod_nonneg (x + 2 ^ 63) (show (2 : Int) ^ 64 ≠ 0 by norm_num)
  have h2 := Int.emod_lt_of_pos (x + 2 ^ 63) (show (0 : Int) < 2 ^ 64 by norm_num)
  constructor <;> omega

theorem wrapInt_idem (x : Int) : wrapInt (wrapInt x) = wrapInt x :=
  wrapInt_of_range (wrapInt_range x).1 (wrapInt_range x).2

/-! ## The loops -/

theorem reagentLoop_fst (jdata : JournalData) (reagents : List Reagent) (c : Int)
    (nf nf' : List String) :
    (reagentLoop jdata reagents (c, nf)).1 = (reagentLoop jdata reagents (c, nf')).1 := by
  induction reagents generalizing c nf nf' with
  | nil => rfl
  | cons reagent rest ih =>
    simp only [reagentLoop]
    cases jdata reagent.Name with
    | none => exact ih _ _ _
    | some market => exact ih _ _ _

theorem reagentLoop_snd (jdata : JournalData) (reagents : List Reagent) (c : Int)
    (nf : List String) :
    (reagentLoop jdata reagents (c, nf)).2 =
      nf ++ (reagents.filter (fun reagent => (jdata reagent.Name).isNone)).map Reagent.Name := by
  induction reagents generalizing c nf with
  | nil => simp [reagentLoop]
  | cons reagent rest ih =>
    simp only [reagentLoop]
    cases h : jdata reagent.Name with
    | none => simp [ih, h]
    | some market => simp [ih, h]

theorem groupLoop_fst (jdata : JournalData) (reagentsAll : List (List Reagent))
    (nf : List String) :
    (groupLoop jdata reagentsAll nf).1 = reagentsAll.map (groupCost jdata) := by
  induction reagentsAll generalizing nf with
  | nil => rfl
  | cons reagents rest ih =>
    simp only [groupLoop, List.map_cons, ih, groupCost]
    rw [reagentLoop_fst jdata reagents 0 nf []]

theorem groupLoop_snd (jdata : JournalData) (reagentsAll : List (List Reagent))
    (nf : List String) :
    (groupLoop jdata reagentsAll nf).2 = nf ++ absentNames jdata reagentsAll := by
  induction reagentsAll generalizing nf with
  | nil => simp [groupLoop, absentNames]
  | cons reagents rest ih =>
    simp only [groupLoop, ih, reagentLoop_snd]
    simp [absentNames]

/-! ## The sorted slice -/

theorem sortInts_sorted (a : List Int) : List.Sorted (· ≤ ·) (sortInts a) :=
  List.sorted_insertionSort _ a

theorem sortInts_perm (a : List Int) : (sortInts a).Perm a :=
  List.perm_insertionSort _ a

theorem sortInts_length (a : List Int) : (sortInts a).length = a.length :=
  (sortInts_perm a).length_eq

theorem sorted_getElem_le {cs : List Int} (hs : List.Sorted (· ≤ ·) cs) {i j : Nat} {a b : Int}
    (hij : i ≤ j) (ha : cs[i]? = some a) (hb : cs[j]? = some b) : a ≤ b := by
  obtain ⟨hi, rfl⟩ := List.getElem?_eq_some.mp ha
  obtain ⟨hj, rfl⟩ := List.getElem?_eq_some.mp hb
  rcases Nat.eq_or_lt_of_le hij with h | h
  · subst h; exact le_refl _
  · exact (List.pairwise_iff_getElem.mp hs) i j hi hj h

/-- On a non-empty slice lines 279-285 do not panic, and give the first element,
the last element, and the middle element or the halved sum. -/
theorem stepStats_eq (cs : List Int) (hn : 1 ≤ cs.length) :
    ∃ lo hi mid, cs[0]? = some lo ∧ cs[cs.length - 1]? = some hi ∧
      cs[cs.length / 2]? = some mid ∧
      stepStats cs = some ⟨lo, hi, if 2 < cs.length then mid else goDiv (goAdd lo hi) 2⟩ := by
  have h0 : cs[0]? = some cs[0] := List.getElem?_eq_getElem (by omega)
  have h1 : cs[cs.length - 1]? = some cs[cs.length - 1] := List.getElem?_eq_getElem (by omega)
  have h2 : cs[cs.length / 2]? = some cs[cs.length / 2] := List.getElem?_eq_getElem (by omega)
  refine ⟨_, _, _, h0, h1, h2, ?_⟩
  unfold stepStats
  rw [h0, h1]
  by_cases h : 2 < cs.length
  · simp [h, h2]
  · simp [h]

theorem tdiv_two_range {x : Int} (h1 : -(2 ^ 63) ≤ x) (h2 : x < 2 ^ 63) :
    -(2 ^ 63) ≤ Int.tdiv x 2 ∧ Int.tdiv x 2 < 2 ^ 63 := by
  rcases le_or_lt 0 x with h | h
  · rw [Int.tdiv_eq_ediv h (by norm_num)]
    constructor <;> omega
  · have hx : x = -(-x) := by omega
    rw [hx, Int.neg_tdiv, Int.tdiv_eq_ediv (by omega) (by norm_num)]
    constructor <;> omega

/-- Without overflow the halved sum of line 284 is the truncated quotient. -/
theorem goDiv_goAdd_two {lo hi : Int} (h1 : -(2 ^ 63) ≤ lo + hi) (h2 : lo + hi < 2 ^ 63) :
    goDiv (goAdd lo hi) 2 = Int.tdiv (lo + hi) 2 := by
  unfold goDiv goAdd
  rw [wrapInt_of_range h1 h2]
  exact wrapInt_of_range (tdiv_two_range h1 h2).1 (tdiv_two_range h1 h2).2

/-- The step closure on a line with at least one group: it does not panic, and
the new result is the old one with the three statistics added and the names
that were not found appended. -/
theorem stepResolver_some (jdata : JournalData) (result : Result)
    (reagentsAll : List (List Reagent)) (hk : 1 ≤ reagentsAll.length) :
    ∃ lo hi mid,
      (sortInts (reagentsAll.map (groupCost jdata)))[0]? = some lo ∧
      (sortInts (reagentsAll.map (groupCost jdata)))[reagentsAll.length - 1]? = some hi ∧
      (sortInts (reagentsAll.map (groupCost jdata)))[reagentsAll.length / 2]? = some mid ∧
      stepStats (sortInts (reagentsAll.map (groupCost jdata))) =
        some ⟨lo, hi, if 2 < reagentsAll.length then mid else goDiv (goAdd lo hi) 2⟩ ∧
      stepResolver jdata result reagentsAll =
        some { Name := result.Name
               Low := goAdd result.Low lo
               High := goAdd result.High hi
               Median := goAdd result.Median
                 (if 2 < reagentsAll.length then mid else goDiv (goAdd lo hi) 2)
               Average := result.Average
               NotFound := result.NotFound ++ absentNames jdata reagentsAll } := by
  have hlen : (sortInts (reagentsAll.map (groupCost jdata))).length = reagentsAll.length := by
    rw [sortInts_length, List.length_map]
  obtain ⟨lo, hi, mid, h0, h1, h2, hst⟩ :=
    stepStats_eq (sortInts (reagentsAll.map (groupCost jdata))) (by omega)
  rw [hlen] at h1 h2 hst
  refine ⟨lo, hi, mid, h0, h1, h2, hst, ?_⟩
  unfold stepResolver
  simp only [groupLoop_fst, groupLoop_snd, hst]

theorem mem_sortInts {a : List Int} {x : Int} : x ∈ sortInts a ↔ x ∈ a :=
  (sortInts_perm a).mem_iff

theorem reagentLoop_filter (jdata : JournalData) (reagents : List Reagent) (st : Int × List String) :
    (reagentLoop jdata reagents st).1 =
      (reagentLoop jdata (reagents.filter (fun reagent => (jdata reagent.Name).isSome)) st).1 := by
  induction reagents generalizing st with
  | nil => rfl
  | cons reagent rest ih =>
    cases h : jdata reagent.Name with
    | none =>
      simp only [reagentLoop, h, List.filter_cons, Option.isSome_none, Bool.false_eq_true,
        if_false]
      rw [ih, reagentLoop_fst jdata _ st.1 (st.2 ++ [reagent.Name]) st.2]
    | some market =>
      simp only [reagentLoop, h, List.filter_cons, Option.isSome_some, if_true]
      exact ih _

theorem reagentLoop_absent (jdata : JournalData) (reagents : List Reagent) (st : Int × List String)
    (h : ∀ reagent ∈ reagents, jdata reagent.Name = none) :
    (reagentLoop jdata reagents st).1 = st.1 := by
  induction reagents generalizing st with
  | nil => rfl
  | cons reagent rest ih =>
    have h1 := h reagent (List.mem_cons_self _ _)
    simp only [reagentLoop, h1]
    exact ih _ (fun x hx => h x (List.mem_cons_of_mem _ hx))

theorem eachLi_notFound (parser : ReagentParser) (jdata : JournalData) (result : Result)
    (lis : List String)
    (h : ∀ s ∈ lis, ∃ reagentsAll, parser s = some reagentsAll ∧ reagentsAll ≠ []) :
    ∃ r, eachLi parser jdata result lis = some r ∧
      r.NotFound = result.NotFound ++
        (lis.map (fun s => absentNames jdata ((parser s).getD []))).flatten := by
  induction lis generalizing result with
  | nil => exact ⟨result, rfl, by simp⟩
  | cons s rest ih =>
    obtain ⟨reagentsAll, hp, hne⟩ := h s (List.mem_cons_self _ _)
    have hk : 1 ≤ reagentsAll.length := by
      cases reagentsAll with
      | nil => exact absurd rfl hne
      | cons a b => simp
    obtain ⟨lo, hi, mid, -, -, -, -, hr⟩ := stepResolver_some jdata result reagentsAll hk
    obtain ⟨r, hr1, hr2⟩ := ih _ (fun x hx => h x (List.mem_cons_of_mem _ hx))
    refine ⟨r, ?_, ?_⟩
    · simp only [eachLi, hp, hr]
      exact hr1
    · rw [hr2]
      simp [hp, List.append_assoc]

theorem professionResult_notFound (parser : ReagentParser) (jdata : JournalData)
    (name : String) (lis : List String)
    (h : ∀ s ∈ lis, ∃ reagentsAll, parser s = some reagentsAll ∧ reagentsAll ≠ []) :
    ∃ r, professionResult parser jdata name lis = some r ∧
      r.NotFound = (lis.map (fun s => absentNames jdata ((parser s).getD []))).flatten := by
  obtain ⟨r, hr, hnf⟩ := eachLi_notFound parser jdata ⟨name, 0, 0, 0, 0, []⟩ lis h
  refine ⟨{ r with Average := goDiv (goAdd r.Low r.High) 2 }, ?_, ?_⟩
  · unfold professionResult
    rw [hr]
  · simpa using hnf

/-! ## The generic parser -/

theorem lazyToBracket_append (name rest : List Char)
    (h1 : ']' ∉ name) (h2 : '\n' ∉ name) :
    lazyToBracket (name ++ ']' :: rest) = some (name, rest) := by
  induction name with
  | nil => simp [lazyToBracket]
  | cons c cs ih =>
    have hc1 : c ≠ ']' := fun h => h1 (h ▸ List.mem_cons_self _ _)
    have hc2 : c ≠ '\n' := fun h => h2 (h ▸ List.mem_cons_self _ _)
    have ih' := ih (fun h => h1 (List.mem_cons_of_mem _ h)) (fun h => h2 (List.mem_cons_of_mem _ h))
    simp [lazyToBracket, hc1, hc2, ih']

theorem lazyToBracket_sound (s name rest : List Char)
    (h : lazyToBracket s = some (name, rest)) : s = name ++ ']' :: rest := by
  induction s generalizing name with
  | nil => simp [lazyToBracket] at h
  | cons c cs ih =>
    unfold lazyToBracket at h
    by_cases hc : c = ']'
    · simp [hc] at h
      obtain ⟨rfl, rfl⟩ := h
      simp [hc]
    · by_cases hn : c = '\n'
      · simp [hc, hn] at h
      · simp only [hc, hn, if_false] at h
        cases hr : lazyToBracket cs with
        | none => simp [hr] at h
        | some p =>
          obtain ⟨body, r⟩ := p
          simp [hr] at h
          obtain ⟨rfl, rfl⟩ := h
          simp [ih body hr]

theorem matchBracketed_sound (s name rest : List Char)
    (h : matchBracketed s = some (name, rest)) : s = '[' :: (name ++ ']' :: rest) := by
  cases s with
  | nil => simp [matchBracketed] at h
  | cons c cs =>
    unfold matchBracketed at h
    by_cases hc : c = '['
    · simp only [hc, if_true] at h
      rw [hc, lazyToBracket_sound cs name rest h]
    · simp [hc] at h

theorem matchBracketed_token (name rest : List Char) (h1 : ']' ∉ name) (h2 : '\n' ∉ name) :
    matchBracketed ('[' :: (name ++ ']' :: rest)) = some (name, rest) := by
  simp [matchBracketed, lazyToBracket_append name rest h1 h2]

theorem matchCountPrefix_sound (s digits rest : List Char)
    (h : matchCountPrefix s = some (digits, rest)) :
    s = digits ++ ' ' :: 'x' :: ' ' :: rest ∧ digits ≠ [] ∧ ∀ c ∈ digits, c.isDigit = true := by
  unfold matchCountPrefix at h
  have hs := List.takeWhile_append_dropWhile Char.isDigit s
  have hd : ∀ c ∈ s.takeWhile Char.isDigit, c.isDigit = true := fun c hc =>
    List.mem_takeWhile_imp hc
  split at h
  · simp at h
  · rename_i d ds r h1 h2
    simp at h
    obtain ⟨rfl, rfl⟩ := h
    rw [h1, h2] at hs
    rw [h1] at hd
    exact ⟨hs.symm, by simp, hd⟩
  · simp at h

theorem matchItem_sound (s digits name rest : List Char)
    (h : matchItem s = some (digits, name, rest)) :
    s = itemToken digits name ++ rest ∧ ∀ c ∈ digits, c.isDigit = true := by
  unfold matchItem at h
  cases hp : matchCountPrefix s with
  | none =>
    simp only [hp] at h
    cases hb : matchBracketed s with
    | none => simp [hb] at h
    | some p =>
      obtain ⟨n, r⟩ := p
      simp [hb] at h
      obtain ⟨rfl, rfl, rfl⟩ := h
      exact ⟨by simp [itemToken, matchBracketed_sound s n r hb], by simp⟩
  | some p =>
    obtain ⟨d, r⟩ := p
    obtain ⟨hs, hne, hd⟩ := matchCountPrefix_sound s d r hp
    simp only [hp] at h
    cases hb : matchBracketed r with
    | none =>
      simp only [hb] at h
      cases hb2 : matchBracketed s with
      | none => simp [hb2] at h
      | some q =>
        obtain ⟨n, r2⟩ := q
        simp [hb2] at h
        obtain ⟨rfl, rfl, rfl⟩ := h
        exact ⟨by simp [itemToken, matchBracketed_sound s n r2 hb2], by simp⟩
    | some q =>
      obtain ⟨n, r2⟩ := q
      simp [hb] at h
      obtain ⟨rfl, rfl, rfl⟩ := h
      refine ⟨?_, hd⟩
      rw [hs, matchBracketed_sound r n r2 hb]
      simp [itemToken, hne]

theorem matchCountPrefix_token (digits rest : List Char) (hne : digits ≠ [])
    (hd : ∀ c ∈ digits, c.isDigit = true) :
    matchCountPrefix (digits ++ ' ' :: 'x' :: ' ' :: rest) = some (digits, rest) := by
  unfold matchCountPrefix
  have h1 : (digits ++ ' ' :: 'x' :: ' ' :: rest).takeWhile Char.isDigit = digits := by
    rw [List.takeWhile_append_of_pos hd]
    simp [List.takeWhile_cons]
  have h2 : (digits ++ ' ' :: 'x' :: ' ' :: rest).dropWhile Char.isDigit =
      ' ' :: 'x' :: ' ' :: rest := by
    rw [List.dropWhile_append_of_pos hd]
    simp [List.dropWhile_cons]
  rw [h1, h2]
  cases digits with
  | nil => exact absurd rfl hne
  | cons d ds => rfl

theorem matchCountPrefix_nil_of_not_digit (c : Char) (cs : List Char) (h : c.isDigit = false) :
    matchCountPrefix (c :: cs) = none := by
  unfold matchCountPrefix
  simp [List.takeWhile_cons, h]

theorem matchItem_token (digits name rest : List Char)
    (hd : ∀ c ∈ digits, c.isDigit = true) (h1 : ']' ∉ name) (h2 : '\n' ∉ name) :
    matchItem (itemToken digits name ++ rest) = some (digits, name, rest) := by
  unfold matchItem
  by_cases hne : digits = []
  · subst hne
    have hb : matchBracketed ('[' :: (name ++ ']' :: rest)) = some (name, rest) :=
      matchBracketed_token name rest h1 h2
    have hp : matchCountPrefix ('[' :: (name ++ ']' :: rest)) = none :=
      matchCountPrefix_nil_of_not_digit _ _ (by decide)
    simp [itemToken, hb, hp]
  · have hp := matchCountPrefix_token digits ('[' :: (name ++ ']' :: rest)) hne hd
    have hb : matchBracketed ('[' :: (name ++ ']' :: rest)) = some (name, rest) :=
      matchBracketed_token name rest h1 h2
    simp [itemToken, hne, hp, hb]

theorem itemToken_eq (digits name : List Char) :
    itemToken digits name = countText digits ++ '[' :: (name ++ [']']) := rfl

theorem countText_no_bracket (digits : List Char) (hd : ∀ c ∈ digits, c.isDigit = true) :
    ∀ c ∈ countText digits, c ≠ '[' := by
  intro c hc
  unfold countText at hc
  by_cases h : digits = []
  · simp [h] at hc
  · simp only [h, if_false, List.mem_append] at hc
    rcases hc with hc | hc
    · intro hb
      have := hd c hc
      rw [hb] at this
      exact absurd this (by decide)
    · simp at hc
      rcases hc with rfl | rfl | rfl <;> decide

theorem takeWhile_before_bracket (l rest : List Char) (h : ∀ c ∈ l, c ≠ '[') :
    (l ++ '[' :: rest).takeWhile (fun c => c ≠ '[') = l := by
  rw [List.takeWhile_append_of_pos (by simpa using h)]
  simp [List.takeWhile_cons]

theorem matchItem_before_none (a p digits name rest : List Char) (hp : p ≠ [])
    (hb : '[' ∉ a ++ p) (hd : ∀ c ∈ digits, c.isDigit = true)
    (hm : if digits = [] then endsWithCount (a ++ p) = false
      else endsWithDigit (a ++ p) = false) :
    matchItem (p ++ (itemToken digits name ++ rest)) = none := by
  cases h : matchItem (p ++ (itemToken digits name ++ rest)) with
  | none => rfl
  | some m =>
    exfalso
    obtain ⟨d', n', r'⟩ := m
    obtain ⟨hs, hd'⟩ := matchItem_sound _ _ _ _ h
    have hpb : ∀ c ∈ p, c ≠ '[' := fun c hc hcb => hb (List.mem_append_right _ (hcb ▸ hc))
    have h1 : (p ++ (itemToken digits name ++ rest)).takeWhile (fun c => c ≠ '[') =
        p ++ countText digits := by
      have e : p ++ (itemToken digits name ++ rest) =
          (p ++ countText digits) ++ '[' :: (name ++ [']'] ++ rest) := by
        simp [itemToken_eq]
      rw [e]
      exact takeWhile_before_bracket _ _ (by
        intro c hc
        rcases List.mem_append.mp hc with hc | hc
        · exact hpb c hc
        · exact countText_no_bracket digits hd c hc)
    have h2 : (itemToken d' n' ++ r').takeWhile (fun c => c ≠ '[') = countText d' := by
      have e : itemToken d' n' ++ r' = countText d' ++ '[' :: (n' ++ [']'] ++ r') := by
        simp [itemToken_eq]
      rw [e]
      exact takeWhile_before_bracket _ _ (countText_no_bracket d' hd')
    rw [hs, h2] at h1
    by_cases hd0 : d' = []
    · simp [countText, hd0] at h1
      exact hp h1.1
    · by_cases hdg : digits = []
      · simp only [hdg, if_true] at hm
        simp only [countText, hd0, hdg, if_true, if_false, List.append_nil] at h1
        rw [← h1] at hm
        obtain ⟨c, hc⟩ : ∃ c, d'.getLast? = some c := by
          cases hl : d'.getLast? with
          | none => exact absurd (List.getLast?_eq_none_iff.mp hl) hd0
          | some c => exact ⟨c, rfl⟩
        have hcd : c.isDigit = true := hd' c (List.mem_of_getLast?_eq_some hc)
        obtain ⟨q, hq⟩ : ∃ q, d'.reverse = c :: q := by
          cases hr : d'.reverse with
          | nil => simp at hr; exact absurd hr hd0
          | cons x q =>
            rw [← List.head?_reverse, hr] at hc
            simp at hc
            exact ⟨q, by rw [hc]⟩
        simp [endsWithCount, hq, hcd] at hm
      · simp only [hdg, if_false] at hm
        simp only [countText, hd0, hdg, if_false] at h1
        rw [← List.append_assoc] at h1
        have h3 : d' = p ++ digits := List.append_cancel_right h1
        have hl : (a ++ p).getLast? = p.getLast? := List.getLast?_append_of_ne_nil a hp
        obtain ⟨c, hc⟩ : ∃ c, p.getLast? = some c := by
          cases hl' : p.getLast? with
          | none => exact absurd (List.getLast?_eq_none_iff.mp hl') hp
          | some c => exact ⟨c, rfl⟩
        have hcd : c.isDigit = true :=
          hd' c (by rw [h3]; exact List.mem_append_left _ (List.mem_of_getLast?_eq_some hc))
        simp [endsWithDigit, hl, hc, hcd] at hm

theorem matchItem_nil : matchItem [] = none := by
  simp [matchItem, matchCountPrefix, matchBracketed]

theorem matchItem_rest_lt (s digits name rest : List Char)
    (h : matchItem s = some (digits, name, rest)) : rest.length < s.length := by
  rw [(matchItem_sound s digits name rest h).1, itemToken_eq]
  simp
  omega

theorem findAllItems_fuel (f g : Nat) (s : List Char) (hf : s.length ≤ f) (hg : s.length ≤ g) :
    findAllItems f s = findAllItems g s := by
  induction f generalizing g s with
  | zero =>
    have hs : s = [] := List.length_eq_zero.mp (by omega)
    subst hs
    cases g with
    | zero => rfl
    | succ g => simp [findAllItems, matchItem_nil]
  | succ f ih =>
    cases s with
    | nil =>
      cases g with
      | zero => simp [findAllItems, matchItem_nil]
      | succ g => simp [findAllItems, matchItem_nil]
    | cons c cs =>
      cases g with
      | zero => simp at hg
      | succ g =>
        simp only [findAllItems]
        cases hm : matchItem (c :: cs) with
        | none =>
          simp only
          exact ih g cs (by simpa using hf) (by simpa using hg)
        | some m =>
          obtain ⟨d, n, r⟩ := m
          have hlt := matchItem_rest_lt _ _ _ _ hm
          simp only
          rw [ih g r (by omega) (by omega)]

theorem matchItem_no_bracket (s : List Char) (h : '[' ∉ s) : matchItem s = none := by
  cases hm : matchItem s with
  | none => rfl
  | some m =>
    obtain ⟨d, n, r⟩ := m
    exact absurd (by rw [(matchItem_sound s d n r hm).1, itemToken_eq]; simp) h

theorem findAllItems_no_bracket (f : Nat) (s : List Char) (h : '[' ∉ s) :
    findAllItems f s = [] := by
  induction f generalizing s with
  | zero => rfl
  | succ f ih =>
    simp only [findAllItems, matchItem_no_bracket s h]
    cases s with
    | nil => rfl
    | cons c cs => exact ih cs (fun hc => h (List.mem_cons_of_mem _ hc))

theorem findAllItems_segment (f : Nat) (a p digits name rest : List Char)
    (hb : '[' ∉ a ++ p) (hd : ∀ c ∈ digits, c.isDigit = true)
    (h1 : ']' ∉ name) (h2 : '\n' ∉ name)
    (hm : if digits = [] then endsWithCount (a ++ p) = false
      else endsWithDigit (a ++ p) = false)
    (hf : (p ++ (itemToken digits name ++ rest)).length ≤ f) :
    findAllItems f (p ++ (itemToken digits name ++ rest)) =
      (digits, name) :: findAllItems rest.length rest := by
  induction p generalizing a f with
  | nil =>
    cases f with
    | zero => simp [itemToken_eq] at hf
    | succ f =>
      simp only [List.nil_append, findAllItems, matchItem_token digits name rest hd h1 h2]
      rw [findAllItems_fuel f rest.length rest (by
        simp [itemToken_eq] at hf
        omega) (le_refl _)]
  | cons c p ih =>
    cases f with
    | zero => simp at hf
    | succ f =>
      have hn : matchItem (c :: (p ++ (itemToken digits name ++ rest))) = none :=
        matchItem_before_none a (c :: p) digits name rest (by simp) hb hd hm
      simp only [List.cons_append, findAllItems, hn]
      have e : a ++ c :: p = (a ++ [c]) ++ p := by simp
      exact ih f (a ++ [c]) (e ▸ hb) (e ▸ hm) (by simpa using hf)

theorem findAllItems_segments (segs : List ItemSegment) (tail : List Char)
    (hv : ∀ g ∈ segs, g.Valid) (ht : '[' ∉ tail) (f : Nat)
    (hf : ((segs.map ItemSegment.text).flatten ++ tail).length ≤ f) :
    findAllItems f ((segs.map ItemSegment.text).flatten ++ tail) =
      segs.map (fun g => (g.digits, g.name)) := by
  induction segs generalizing f with
  | nil => simpa using findAllItems_no_bracket f tail ht
  | cons g segs ih =>
    obtain ⟨hb, hd, h1, h2, hm, -⟩ := hv g (List.mem_cons_self _ _)
    have e : ((g :: segs).map ItemSegment.text).flatten ++ tail =
        g.before ++ (itemToken g.digits g.name ++
          ((segs.map ItemSegment.text).flatten ++ tail)) := by
      simp [ItemSegment.text]
    rw [e] at hf ⊢
    rw [findAllItems_segment f [] g.before g.digits g.name _ (by simpa using hb) hd h1 h2
      (by simpa using hm) hf]
    rw [ih (fun x hx => hv x (List.mem_cons_of_mem _ hx)) _ (le_refl _)]
    simp

theorem decimalValue_nil : decimalValue [] = 0 := rfl

theorem signAndBody_digit (c : Char) (cs : List Char) (hc : c.isDigit = true) :
    signAndBody (c :: cs) = (false, c :: cs) := by
  have hp : c ≠ '+' := fun h => absurd (h ▸ hc) (by decide)
  have hm : c ≠ '-' := fun h => absurd (h ▸ hc) (by decide)
  unfold signAndBody
  split
  · rename_i heq; simp at heq; exact absurd heq.1 hp
  · rename_i heq; simp at heq; exact absurd heq.1 hm
  · rfl

theorem toInt64_digits (digits : List Char) (hd : ∀ c ∈ digits, c.isDigit = true)
    (hv : decimalValue digits < 2 ^ 63) : toInt64 digits = (decimalValue digits : Int) := by
  cases digits with
  | nil => simp [toInt64, signAndBody, decimalValue]
  | cons c cs =>
    have hc : c.isDigit = true := hd c (List.mem_cons_self _ _)
    have hall : (c :: cs).all Char.isDigit = true := List.all_eq_true.mpr hd
    have hv' : ¬ decimalValue (c :: cs) ≥ 2 ^ 63 := by omega
    unfold toInt64
    rw [signAndBody_digit c cs hc]
    simp only [hall, hv']
    simp

theorem ParseGeneric_segments (segs : List ItemSegment) (tail : List Char)
    (hv : ∀ g ∈ segs, g.Valid) (ht : '[' ∉ tail) :
    ParseGeneric (String.mk ((segs.map ItemSegment.text).flatten ++ tail)) =
      segs.map (fun g => [⟨String.mk (trimSpaces g.name),
        if decimalValue g.digits = 0 then 1 else (decimalValue g.digits : Int)⟩]) := by
  unfold ParseGeneric
  have hl : (String.mk ((segs.map ItemSegment.text).flatten ++ tail)).length =
      ((segs.map ItemSegment.text).flatten ++ tail).length := rfl
  rw [hl, findAllItems_segments segs tail hv ht _ (le_refl _), List.map_map]
  apply List.map_congr_left
  intro g hg
  obtain ⟨-, hd, -, -, -, hlt⟩ := hv g hg
  simp only [Function.comp, toInt64_digits g.digits hd hlt]
  simp

theorem head?_dropWhile_blank (l : List Char) :
    (l.dropWhile (fun c => c = ' ')).head? ≠ some ' ' := by
  induction l with
  | nil => simp
  | cons c cs ih =>
    by_cases h : c = ' '
    · simpa [List.dropWhile_cons, h] using ih
    · simp [List.dropWhile_cons, h]

theorem takeWhile_blank (l : List Char) :
    l.takeWhile (fun c => c = ' ') = List.replicate (l.takeWhile (fun c => c = ' ')).length ' ' := by
  rw [List.eq_replicate_iff]
  refine ⟨rfl, fun b hb => ?_⟩
  simpa using List.mem_takeWhile_imp hb

/-- What `strings.Trim(s, " ")` leaves: the string is some blanks, the result, and
some more blanks, and the result neither begins nor ends with a blank. -/
theorem trimSpaces_spec (l : List Char) :
    ∃ a b, l = List.replicate a ' ' ++ trimSpaces l ++ List.replicate b ' ' ∧
      (trimSpaces l).head? ≠ some ' ' ∧ (trimSpaces l).getLast? ≠ some ' ' := by
  have h1 := List.takeWhile_append_dropWhile (fun c => decide (c = ' ')) l
  have h2 := List.takeWhile_append_dropWhile (fun c => decide (c = ' '))
    (l.dropWhile (fun c => c = ' ')).reverse
  have h3 : l.dropWhile (fun c => c = ' ') =
      trimSpaces l ++ (((l.dropWhile (fun c => c = ' ')).reverse).takeWhile
        (fun c => c = ' ')).reverse := by
    have := congrArg List.reverse h2
    rw [List.reverse_append, List.reverse_reverse] at this
    exact this.symm
  have hlast : (trimSpaces l).getLast? ≠ some ' ' := by
    unfold trimSpaces
    rw [List.getLast?_reverse]
    exact head?_dropWhile_blank _
  refine ⟨(l.takeWhile (fun c => c = ' ')).length,
    (((l.dropWhile (fun c => c = ' ')).reverse).takeWhile (fun c => c = ' ')).length,
    ?_, ?_, hlast⟩
  · rw [← takeWhile_blank, List.append_assoc]
    have e : List.replicate
        (((l.dropWhile (fun c => c = ' ')).reverse).takeWhile (fun c => c = ' ')).length ' ' =
        (((l.dropWhile (fun c => c = ' ')).reverse).takeWhile (fun c => c = ' ')).reverse := by
      rw [takeWhile_blank (l.dropWhile (fun c => c = ' ')).reverse]
      simp
    rw [e, ← h3, h1]
  · cases ht : trimSpaces l with
    | nil => simp
    | cons x xs =>
      have := head?_dropWhile_blank l
      rw [h3, ht] at this
      simpa using this

/-! ## The inscription parser: the pattern -/

theorem followingLit_eq : followingLit =
    ['f', 'o', 'l', 'l', 'o', 'w', 'i', 'n', 'g', ':', ' '] := by decide

theorem takeWhile_line (l rest : List Char) (hl : '\n' ∉ l)
    (hr : rest = [] ∨ rest.head? = some '\n') :
    (l ++ rest).takeWhile (fun x => x ≠ '\n') = l := by
  rw [List.takeWhile_append_of_pos (by
    intro c hc
    simpa using fun h : c = '\n' => hl (h ▸ hc))]
  rcases hr with rfl | hr
  · simp
  · cases rest with
    | nil => simp
    | cons x xs =>
      simp at hr
      simp [List.takeWhile_cons, hr]

theorem afterLastFollowing_none (s : List Char)
    (h : ∀ a b, s.takeWhile (fun x => x ≠ '\n') ≠ a ++ (followingLit ++ b)) :
    afterLastFollowing s = none := by
  induction s with
  | nil => rfl
  | cons c cs ih =>
    unfold afterLastFollowing
    by_cases hc : c = '\n'
    · simp [hc]
    · have htw : (c :: cs).takeWhile (fun x => x ≠ '\n') =
          c :: cs.takeWhile (fun x => x ≠ '\n') := by
        simp [List.takeWhile_cons, hc]
      have ih' := ih (fun a b hab => h (c :: a) b (by rw [htw, hab]; rfl))
      simp only [hc, if_false, ih']
      by_cases hp : followingLit.isPrefixOf (c :: cs) = true
      · exfalso
        obtain ⟨b, hb⟩ := List.isPrefixOf_iff_prefix.mp hp
        apply h [] (b.takeWhile (fun x => x ≠ '\n'))
        rw [← hb, List.takeWhile_append_of_pos (by
          intro x hx
          simpa using fun hn : x = '\n' =>
            (by decide : '\n' ∉ followingLit) (hn ▸ hx))]
        rfl
      · simp [hp]

theorem no_following_after (list : List Char)
    (h : ¬ followingLit <:+: list) :
    ∀ a b, followingLit.tail ++ list ≠ a ++ (followingLit ++ b) := by
  intro a b hab
  rcases List.append_eq_append_iff.mp hab with ⟨a', ha, hl⟩ | ⟨c', hc, hl⟩
  · exact h ⟨a', b, by rw [hl]; simp⟩
  · cases c' with
    | nil =>
      simp at hl
      exact h ⟨[], b, by rw [← hl]; simp⟩
    | cons x xs =>
      have hx : x = 'f' := by
        rw [followingLit_eq] at hl
        simp at hl
        exact hl.1.symm
      have hmem : 'f' ∈ followingLit.tail := by
        rw [hc, hx]
        simp
      exact absurd hmem (by decide)

theorem afterLastFollowing_found (mid list rest : List Char)
    (hm : '\n' ∉ mid) (hl : '\n' ∉ list) (hr : rest = [] ∨ rest.head? = some '\n')
    (hf : ¬ followingLit <:+: list) :
    afterLastFollowing (mid ++ (followingLit ++ (list ++ rest))) = some list := by
  induction mid with
  | nil =>
    have hnone : afterLastFollowing (followingLit.tail ++ (list ++ rest)) = none := by
      apply afterLastFollowing_none
      have htl : '\n' ∉ followingLit.tail ++ list := by
        intro hmem
        rcases List.mem_append.mp hmem with h | h
        · exact absurd h (by decide)
        · exact hl h
      rw [← List.append_assoc, takeWhile_line _ rest htl hr]
      exact no_following_after list hf
    have e : [] ++ (followingLit ++ (list ++ rest)) =
        'f' :: (followingLit.tail ++ (list ++ rest)) := by
      rw [followingLit_eq]; rfl
    rw [e]
    unfold afterLastFollowing
    have hp : followingLit.isPrefixOf ('f' :: (followingLit.tail ++ (list ++ rest))) = true := by
      apply List.isPrefixOf_iff_prefix.mpr
      exact ⟨list ++ rest, by rw [followingLit_eq]; rfl⟩
    have hd : ('f' :: (followingLit.tail ++ (list ++ rest))).drop followingLit.length =
        list ++ rest := by
      rw [followingLit_eq]; rfl
    simp only [hnone, hp, hd, if_true]
    rw [takeWhile_line list rest hl hr]
    simp
  | cons c cs ih =>
    have hc : c ≠ '\n' := fun h => hm (h ▸ List.mem_cons_self _ _)
    have ih' := ih (fun h => hm (List.mem_cons_of_mem _ h))
    simp only [List.cons_append]
    unfold afterLastFollowing
    simp [hc, ih']

theorem matchInscript_found (num mid list rest : List Char) (hn : num ≠ [])
    (hnd : ∀ c ∈ num, isNumDot c = true)
    (hm : '\n' ∉ mid) (hl : '\n' ∉ list) (hr : rest = [] ∨ rest.head? = some '\n')
    (hf : ¬ followingLit <:+: list) :
    matchInscript (num ++ (stacksLit ++ (mid ++ (followingLit ++ (list ++ rest))))) =
      some (num, list) := by
  unfold matchInscript
  have h1 : (num ++ (stacksLit ++ (mid ++ (followingLit ++ (list ++ rest))))).takeWhile isNumDot
      = num := by
    rw [List.takeWhile_append_of_pos hnd]
    simp [stacksLit, List.takeWhile_cons, isNumDot]
  have h2 : (num ++ (stacksLit ++ (mid ++ (followingLit ++ (list ++ rest))))).dropWhile isNumDot
      = stacksLit ++ (mid ++ (followingLit ++ (list ++ rest))) := by
    rw [List.dropWhile_append_of_pos hnd]
    simp [stacksLit, List.dropWhile_cons, isNumDot]
  rw [h1, h2]
  cases num with
  | nil => exact absurd rfl hn
  | cons d ds =>
    simp only [stacksLit, List.cons_append, List.nil_append]
    rw [afterLastFollowing_found mid list rest hm hl hr hf]

theorem matchInscript_none_of_head (c : Char) (cs : List Char) (h : isNumDot c = false) :
    matchInscript (c :: cs) = none := by
  unfold matchInscript
  simp [List.takeWhile_cons, h]

theorem findInscript_none (s : List Char) (h : ∀ c ∈ s, isNumDot c = false) :
    findInscript s = none := by
  induction s with
  | nil => rfl
  | cons c cs ih =>
    simp only [findInscript,
      matchInscript_none_of_head c cs (h c (List.mem_cons_self _ _))]
    exact ih (fun x hx => h x (List.mem_cons_of_mem _ hx))

theorem findInscript_found (pre num mid list rest : List Char)
    (hp : ∀ c ∈ pre, isNumDot c = false) (hn : num ≠ [])
    (hnd : ∀ c ∈ num, isNumDot c = true)
    (hm : '\n' ∉ mid) (hl : '\n' ∉ list) (hr : rest = [] ∨ rest.head? = some '\n')
    (hf : ¬ followingLit <:+: list) :
    findInscript (pre ++ (num ++ (stacksLit ++ (mid ++ (followingLit ++ (list ++ rest)))))) =
      some (num, list) := by
  induction pre with
  | nil =>
    have hfound := matchInscript_found num mid list rest hn hnd hm hl hr hf
    cases num with
    | nil => exact absurd rfl hn
    | cons d ds =>
      simp only [List.nil_append, List.cons_append] at hfound ⊢
      rw [findInscript, hfound]
  | cons c cs ih =>
    simp only [List.cons_append, findInscript,
      matchInscript_none_of_head c _ (hp c (List.mem_cons_self _ _))]
    exact ih (fun x hx => hp x (List.mem_cons_of_mem _ hx))

theorem matchBracketed_nil : matchBracketed [] = none := rfl

theorem matchBracketed_rest_lt (s name rest : List Char)
    (h : matchBracketed s = some (name, rest)) : rest.length < s.length := by
  rw [matchBracketed_sound s name rest h]
  simp
  omega

theorem findAllBracketed_fuel (f g : Nat) (s : List Char) (hf : s.length ≤ f)
    (hg : s.length ≤ g) : findAllBracketed f s = findAllBracketed g s := by
  induction f generalizing g s with
  | zero =>
    have hs : s = [] := List.length_eq_zero.mp (by omega)
    subst hs
    cases g with
    | zero => rfl
    | succ g => simp [findAllBracketed, matchBracketed_nil]
  | succ f ih =>
    cases s with
    | nil =>
      cases g with
      | zero => simp [findAllBracketed, matchBracketed_nil]
      | succ g => simp [findAllBracketed, matchBracketed_nil]
    | cons c cs =>
      cases g with
      | zero => simp at hg
      | succ g =>
        simp only [findAllBracketed]
        cases hm : matchBracketed (c :: cs) with
        | none =>
          simp only
          exact ih g cs (by simpa using hf) (by simpa using hg)
        | some m =>
          obtain ⟨n, r⟩ := m
          have hlt := matchBracketed_rest_lt _ _ _ hm
          simp only
          rw [ih g r (by omega) (by omega)]

theorem matchBracketed_none_of_head (c : Char) (cs : List Char) (h : c ≠ '[') :
    matchBracketed (c :: cs) = none := by
  simp [matchBracketed, h]

theorem findAllBracketed_no_bracket (f : Nat) (s : List Char) (h : '[' ∉ s) :
    findAllBracketed f s = [] := by
  induction f generalizing s with
  | zero => rfl
  | succ f ih =>
    cases s with
    | nil => simp [findAllBracketed, matchBracketed_nil]
    | cons c cs =>
      have hc : c ≠ '[' := fun hc => h (hc ▸ List.mem_cons_self _ _)
      simp only [findAllBracketed, matchBracketed_none_of_head c cs hc]
      exact ih cs (fun hx => h (List.mem_cons_of_mem _ hx))

theorem findAllBracketed_segment (f : Nat) (p name rest : List Char)
    (hb : '[' ∉ p) (h1 : ']' ∉ name) (h2 : '\n' ∉ name)
    (hf : (p ++ '[' :: (name ++ ']' :: rest)).length ≤ f) :
    findAllBracketed f (p ++ '[' :: (name ++ ']' :: rest)) =
      name :: findAllBracketed rest.length rest := by
  induction p generalizing f with
  | nil =>
    cases f with
    | zero => simp at hf
    | succ f =>
      simp only [List.nil_append, findAllBracketed, matchBracketed_token name rest h1 h2]
      rw [findAllBracketed_fuel f rest.length rest (by
        simp at hf
        omega) (le_refl _)]
  | cons c p ih =>
    cases f with
    | zero => simp at hf
    | succ f =>
      have hc : c ≠ '[' := fun hc => hb (hc ▸ List.mem_cons_self _ _)
      simp only [List.cons_append, findAllBracketed, matchBracketed_none_of_head c _ hc]
      exact ih f (fun hx => hb (List.mem_cons_of_mem _ hx)) (by simpa using hf)

theorem findAllBracketed_segments (names : List (List Char × List Char)) (tail : List Char)
    (hv : ∀ g ∈ names, '[' ∉ g.1 ∧ ']' ∉ g.2 ∧ '\n' ∉ g.2) (ht : '[' ∉ tail) (f : Nat)
    (hf : (bracketedText names ++ tail).length ≤ f) :
    findAllBracketed f (bracketedText names ++ tail) = names.map Prod.snd := by
  induction names generalizing f with
  | nil => simpa [bracketedText] using findAllBracketed_no_bracket f tail ht
  | cons g names ih =>
    obtain ⟨hb, h1, h2⟩ := hv g (List.mem_cons_self _ _)
    have e : bracketedText (g :: names) ++ tail =
        g.1 ++ '[' :: (g.2 ++ ']' :: (bracketedText names ++ tail)) := by
      simp [bracketedText]
    rw [e] at hf ⊢
    rw [findAllBracketed_segment f g.1 g.2 _ hb h1 h2 hf]
    rw [ih (fun x hx => hv x (List.mem_cons_of_mem _ hx)) _ (le_refl _)]
    simp

/-! ## The inscription parser: the stack count -/

theorem bitLengthAux_le (f n k : Nat) (h : n < 2 ^ k) : bitLengthAux f n ≤ k := by
  induction f generalizing n k with
  | zero => exact Nat.zero_le _
  | succ f ih =>
    unfold bitLengthAux
    by_cases hn : n = 0
    · simp [hn]
    · simp only [hn, if_false]
      cases k with
      | zero => simp at h; exact absurd h hn
      | succ k =>
        have : n / 2 < 2 ^ k := by
          rw [Nat.pow_succ] at h
          omega
        have := ih (n / 2) k this
        omega

theorem roundHalfEven_exact (m d : Nat) (hd : 0 < d) : roundHalfEven (d * m) d = m := by
  unfold roundHalfEven
  have h1 : d * m % d = 0 := Nat.mul_mod_right d m
  have h2 : d * m / d = m := Nat.mul_div_cancel_left m hd
  rw [h1, h2]
  have : ¬ (2 * 0 > d ∨ 2 * 0 = d ∧ m % 2 = 1) := by omega
  simp only [this, if_false]

/-- A value that is a `float64` is rounded to itself: `m * 2^t` units with
`m < 2^53`, below the overflow threshold. -/
theorem roundUnits_exact (n d m t : Nat) (hd : 0 < d) (hn : n = d * (m * 2 ^ t))
    (hm : m < 2 ^ 53) (ho : m * 2 ^ t < float64Overflow) : roundUnits n d = some (m * 2 ^ t) := by
  unfold roundUnits
  have hq : n / d = m * 2 ^ t := by rw [hn]; exact Nat.mul_div_cancel_left _ hd
  have hlt : m * 2 ^ t < 2 ^ (t + 53) := by
    rw [Nat.pow_add, Nat.mul_comm (2 ^ t)]
    exact Nat.mul_lt_mul_of_pos_right hm (Nat.two_pow_pos _)
  have hb : bitLength (n / d) - 53 ≤ t := by
    have := bitLengthAux_le (n / d) (n / d) (t + 53) (hq ▸ hlt)
    unfold bitLength
    omega
  obtain ⟨e, he⟩ : ∃ e, t = (bitLength (n / d) - 53) + e := ⟨t - (bitLength (n / d) - 53), by omega⟩
  generalize bitLength (n / d) - 53 = s at he
  subst he
  have hn' : n = (d * 2 ^ s) * (m * 2 ^ e) := by
    rw [hn, Nat.pow_add]; ring
  have hr : roundHalfEven n (d * 2 ^ s) = m * 2 ^ e := by
    rw [hn']
    exact roundHalfEven_exact _ _ (Nat.mul_pos hd (Nat.two_pow_pos _))
  have hu : m * 2 ^ e * 2 ^ s = m * 2 ^ (s + e) := by rw [Nat.pow_add]; ring
  simp only [hr, hu]
  have : ¬ (m * 2 ^ (s + e) ≥ float64Overflow) := by omega
  simp only [this, if_false]

theorem ceilDiv_bounds (x y z : Nat) (hy : 0 < y) (hz : 0 < z) :
    x ≤ (x * z + (y * z - 1)) / (y * z) * y ∧
      (x * z + (y * z - 1)) / (y * z) * y < x + y ∧
      (x * z + (y * z - 1)) / (y * z) ≤ x := by
  have hyz : 0 < y * z := Nat.mul_pos hy hz
  have h1 := Nat.div_mul_le_self (x * z + (y * z - 1)) (y * z)
  have h2 := Nat.lt_div_mul_add (a := x * z + (y * z - 1)) hyz
  generalize (x * z + (y * z - 1)) / (y * z) = c at h1 h2 ⊢
  have h3 : c * y * z < (x + y) * z := by
    have : c * (y * z) < x * z + y * z := by omega
    calc c * y * z = c * (y * z) := by ring
      _ < x * z + y * z := this
      _ = (x + y) * z := by ring
  have h4 : x * z ≤ c * y * z := by
    have : x * z ≤ c * (y * z) := by omega
    calc x * z ≤ c * (y * z) := this
      _ = c * y * z := by ring
  have h5 : c * y < x + y := Nat.lt_of_mul_lt_mul_right h3
  have h6 : x ≤ c * y := Nat.le_of_mul_le_mul_right h4 hz
  refine ⟨h6, h5, ?_⟩
  by_contra hc
  have : (x + 1) * y ≤ c * y := Nat.mul_le_mul_right y (by omega)
  have : x * y + y ≤ c * y := by
    calc x * y + y = (x + 1) * y := by ring
      _ ≤ c * y := this
  have : x ≤ x * y := Nat.le_mul_of_pos_right x hy
  omega

/-- A numeral that denotes the binary fraction `a / 2^j`, with `20 * a` below
`2^53`, goes through the `float64` arithmetic exactly. -/
theorem float64One_split (j : Nat) (hj : j ≤ 1074) :
    float64One = 2 ^ j * 2 ^ (1074 - j) := by
  unfold float64One
  rw [← Nat.pow_add]
  congr 1
  omega

theorem mul_two_pow_lt (m t e : Nat) (hm : m < 2 ^ 53) (h : 53 + t ≤ e) :
    m * 2 ^ t < 2 ^ e := by
  have h1 : m * 2 ^ t < 2 ^ 53 * 2 ^ t := Nat.mul_lt_mul_of_pos_right hm (Nat.two_pow_pos _)
  have h2 : 2 ^ 53 * 2 ^ t = 2 ^ (53 + t) := (Nat.pow_add 2 53 t).symm
  exact Nat.lt_of_lt_of_le (h2 ▸ h1) (Nat.pow_le_pow_right (Nat.succ_pos 1) h)

theorem below_float64Overflow (m j : Nat) (hm : m < 2 ^ 53) :
    m * 2 ^ (1074 - j) < float64Overflow :=
  mul_two_pow_lt m (1074 - j) 2098 hm (by omega)

theorem ceilTimes20_units (a j : Nat) (hj : j ≤ 1074) (ha : 20 * a < 2 ^ 53) :
    ceilTimes20 (a * 2 ^ (1074 - j)) = ⌈((a : ℚ) / 2 ^ j) * 20⌉ := by
  have hW := float64One_split j hj
  have ho := below_float64Overflow (20 * a) j ha
  have hr : roundUnits (20 * (a * 2 ^ (1074 - j))) 1 = some (20 * a * 2 ^ (1074 - j)) :=
    roundUnits_exact _ 1 (20 * a) (1074 - j) Nat.one_pos (by ring) ha ho
  unfold ceilTimes20
  rw [hr]
  simp only
  rw [hW]
  obtain ⟨h1, h2, h3⟩ := ceilDiv_bounds (20 * a) (2 ^ j) (2 ^ (1074 - j))
    (Nat.two_pow_pos _) (Nat.two_pow_pos _)
  generalize (20 * a * 2 ^ (1074 - j) + (2 ^ j * 2 ^ (1074 - j) - 1)) /
    (2 ^ j * 2 ^ (1074 - j)) = c at h1 h2 h3 ⊢
  have hc : c < 2 ^ 63 := by omega
  rw [if_pos hc]
  symm
  rw [Int.ceil_eq_iff]
  have hy : (0 : ℚ) < 2 ^ j := by positivity
  constructor
  · have : (c : ℚ) * 2 ^ j < 20 * a + 2 ^ j := by exact_mod_cast h2
    have e : (a : ℚ) / 2 ^ j * 20 = (20 * a) / 2 ^ j := by ring
    rw [e, lt_div_iff₀ hy]
    simp only [Int.ofNat_eq_coe, Int.cast_natCast]
    linarith
  · have : (20 * a : ℚ) ≤ (c : ℚ) * 2 ^ j := by exact_mod_cast h1
    have e : (a : ℚ) / 2 ^ j * 20 = (20 * a) / 2 ^ j := by ring
    rw [e, div_le_iff₀ hy]
    simpa using this

theorem ceilTimes20_exact (num : List Char) (u a j : Nat) (hu : parseFloat64 num = some u)
    (hdy : decimalNumber num = (a : ℚ) / 2 ^ j) (hj : j ≤ 1074) (ha : 20 * a < 2 ^ 53) :
    ceilTimes20 u = ⌈decimalNumber num * 20⌉ := by
  unfold parseFloat64 at hu
  split at hu
  · have hdy0 := hdy
    unfold decimalNumber at hdy
    generalize decimalValue (num.takeWhile Char.isDigit ++ (num.dropWhile Char.isDigit).tail)
      = n at hu hdy
    generalize (num.dropWhile Char.isDigit).tail.length = k at hu hdy
    have hnat : n * 2 ^ j = a * 10 ^ k := by
      have h10 : (10 : ℚ) ^ k ≠ 0 := by positivity
      have h2 : (2 : ℚ) ^ j ≠ 0 := by positivity
      rw [div_eq_div_iff h10 h2] at hdy
      exact_mod_cast hdy
    have hn : n * float64One = 10 ^ k * (a * 2 ^ (1074 - j)) := by
      rw [float64One_split j hj, ← Nat.mul_assoc, hnat]
      ring
    have ha' : a < 2 ^ 53 := by omega
    have ho := below_float64Overflow a j ha'
    have hr := roundUnits_exact (n * float64One) (10 ^ k) a (1074 - j)
      (Nat.pos_pow_of_pos k (by norm_num)) hn ha' ho
    rw [hr] at hu
    have hu' : u = a * 2 ^ (1074 - j) := (Option.some.inj hu).symm
    rw [hu', ceilTimes20_units a j hj ha, hdy0]
  · simp at hu

/-! ## The parsers -/

theorem parseFloat64_some_numDot (s : List Char) (u : Nat) (h : parseFloat64 s = some u) :
    s ≠ [] ∧ ∀ c ∈ s, isNumDot c = true := by
  unfold parseFloat64 at h
  split at h
  · rename_i hc
    obtain ⟨h1, h2, h3⟩ := hc
    have hs := List.takeWhile_append_dropWhile Char.isDigit s
    constructor
    · intro he
      subst he
      simp at h3
    · intro c hc
      rw [← hs] at hc
      rcases List.mem_append.mp hc with hc | hc
      · have := List.mem_takeWhile_imp hc
        simp [isNumDot, this]
      · cases hd : s.dropWhile Char.isDigit with
        | nil => rw [hd] at hc; simp at hc
        | cons x xs =>
          rw [hd] at hc h1 h2
          simp at h1 h2
          rcases List.mem_cons.mp hc with rfl | hc
          · simp [isNumDot, h1]
          · simp [isNumDot, h2 c hc]
  · simp at h

theorem mem_bracketedText (names : List (List Char × List Char)) (g : List Char × List Char)
    (hg : g ∈ names) (c : Char) (hc : c ∈ g.2) : c ∈ bracketedText names := by
  unfold bracketedText
  rw [List.mem_flatten]
  exact ⟨_, List.mem_map.mpr ⟨g, hg, rfl⟩, by simp [hc]⟩

theorem ParseInscription_line (pre num mid tail rest : List Char)
    (names : List (List Char × List Char)) (u : Nat)
    (hp : ∀ c ∈ pre, isNumDot c = false) (hu : parseFloat64 num = some u)
    (hm : '\n' ∉ mid) (hv : ∀ g ∈ names, '[' ∉ g.1 ∧ ']' ∉ g.2) (ht : '[' ∉ tail)
    (hl : '\n' ∉ bracketedText names ++ tail)
    (hf : ¬ followingLit <:+: (bracketedText names ++ tail))
    (hr : rest = [] ∨ rest.head? = some '\n') :
    ParseInscription (String.mk (pre ++ (num ++ (stacksLit ++ (mid ++ (followingLit ++
        ((bracketedText names ++ tail) ++ rest))))))) =
      some (names.map (fun g => [⟨String.mk g.2, ceilTimes20 u⟩])) := by
  obtain ⟨hn, hnd⟩ := parseFloat64_some_numDot num u hu
  unfold ParseInscription
  simp only [findInscript_found pre num mid _ rest hp hn hnd hm hl hr hf, hu]
  rw [findAllBracketed_segments names tail (fun g hg =>
    ⟨(hv g hg).1, (hv g hg).2, fun hc =>
      hl (List.mem_append_left _ (mem_bracketedText names g hg _ hc))⟩) ht _ (le_refl _)]
  rw [List.map_map]
  rfl

/-- The cost the assignment of line 273 leaves: the count times the market price
of the last reagent of the group that is found, and the initial value when none is. -/
theorem reagentLoop_last_found (jdata : JournalData) (reagents : List Reagent)
    (st : Int × List String) :
    (reagentLoop jdata reagents st).1 =
      match (reagents.filter (fun reagent => (jdata reagent.Name).isSome)).getLast? with
      | some reagent => goMul reagent.Count ((jdata reagent.Name).getD 0)
      | none => st.1 := by
  induction reagents generalizing st with
  | nil => rfl
  | cons reagent rest ih =>
    cases h : jdata reagent.Name with
    | none =>
      simp only [reagentLoop, h, List.filter_cons, Option.isSome_none, Bool.false_eq_true,
        if_false]
      rw [ih]
    | some market =>
      simp only [reagentLoop, h, List.filter_cons, Option.isSome_some, if_true]
      rw [ih]
      cases hl : (rest.filter (fun reagent => (jdata reagent.Name).isSome)).getLast? with
      | none =>
        have : rest.filter (fun reagent => (jdata reagent.Name).isSome) = [] :=
          List.getLast?_eq_none_iff.mp hl
        simp [this, h]
      | some r =>
        have hne : rest.filter (fun reagent => (jdata reagent.Name).isSome) ≠ [] := by
          intro he
          rw [he] at hl
          simp at hl
        have hc : (reagent :: rest.filter (fun reagent => (jdata reagent.Name).isSome)).getLast?
            = some r := by
          obtain ⟨ys, hys⟩ := List.getLast?_eq_some_iff.mp hl
          rw [hys, ← List.cons_append]
          exact List.getLast?_eq_some_iff.mpr ⟨reagent :: ys, rfl⟩
        rw [hc]

theorem wrapInt_zero_add (x : Int) : goAdd 0 (wrapInt x) = wrapInt x := by
  unfold goAdd
  rw [Int.zero_add, wrapInt_idem]

theorem reagentLoopSum_single (jdata : JournalData) (r : Reagent) (nf : List String) :
    reagentLoopSum jdata [r] (0, nf) = reagentLoop jdata [r] (0, nf) := by
  simp only [reagentLoopSum, reagentLoop]
  cases jdata r.Name with
  | none => rfl
  | some market => simp only [goMul, wrapInt_zero_add]

theorem groupLoopSum_singletons (jdata : JournalData) (reagentsAll : List (List Reagent))
    (h : ∀ g ∈ reagentsAll, ∃ r, g = [r]) (nf : List String) :
    groupLoopSum jdata reagentsAll nf = groupLoop jdata reagentsAll nf := by
  induction reagentsAll generalizing nf with
  | nil => rfl
  | cons g rest ih =>
    obtain ⟨r, rfl⟩ := h g (List.mem_cons_self _ _)
    simp only [groupLoopSum, groupLoop, reagentLoopSum_single,
      ih (fun x hx => h x (List.mem_cons_of_mem _ hx))]

theorem reagentLoopSum_fst (jdata : JournalData) (reagents : List Reagent) (c : Int)
    (nf nf' : List String) :
    (reagentLoopSum jdata reagents (c, nf)).1 = (reagentLoopSum jdata reagents (c, nf')).1 := by
  induction reagents generalizing c nf nf' with
  | nil => rfl
  | cons reagent rest ih =>
    simp only [reagentLoopSum]
    cases jdata reagent.Name with
    | none => exact ih _ _ _
    | some market => exact ih _ _ _

theorem groupLoopSum_fst (jdata : JournalData) (reagentsAll : List (List Reagent))
    (nf : List String) :
    (groupLoopSum jdata reagentsAll nf).1 = reagentsAll.map (groupCostSum jdata) := by
  induction reagentsAll generalizing nf with
  | nil => rfl
  | cons reagents rest ih =>
    simp only [groupLoopSum, List.map_cons, ih, groupCostSum]
    rw [reagentLoopSum_fst jdata reagents 0 nf []]

theorem stepResolverSum_singletons (jdata : JournalData) (result : Result)
    (reagentsAll : List (List Reagent)) (h : ∀ g ∈ reagentsAll, ∃ r, g = [r]) :
    stepResolverSum jdata result reagentsAll = stepResolver jdata result reagentsAll := by
  unfold stepResolverSum stepResolver
  rw [groupLoopSum_singletons jdata reagentsAll h]

theorem ParseGeneric_singletons (s : String) : ∀ g ∈ ParseGeneric s, ∃ r, g = [r] := by
  intro g hg
  unfold ParseGeneric at hg
  obtain ⟨m, -, rfl⟩ := List.mem_map.mp hg
  exact ⟨_, rfl⟩

theorem ParseInscription_singletons (s : String) (reagentsAll : List (List Reagent))
    (h : ParseInscription s = some reagentsAll) : ∀ g ∈ reagentsAll, ∃ r, g = [r] := by
  intro g hg
  unfold ParseInscription at h
  split at h
  · simp at h
  · split at h
    · simp at h
      subst h
      simp at hg
    · simp at h
      subst h
      obtain ⟨m, -, rfl⟩ := List.mem_map.mp hg
      exact ⟨_, rfl⟩

theorem ParseGeneric_no_bracket (s : String) (h : '[' ∉ s.data) : ParseGeneric s = [] := by
  unfold ParseGeneric
  rw [findAllItems_no_bracket _ _ h]
  rfl

theorem ParseInscription_no_numDot (s : String) (h : ∀ c ∈ s.data, isNumDot c = false) :
    ParseInscription s = none := by
  unfold ParseInscription
  rw [findInscript_none _ h]

/-! ## The parsers against the occurrences of their patterns -/

theorem lazyToBracket_name (s name rest : List Char)
    (h : lazyToBracket s = some (name, rest)) : ']' ∉ name ∧ '\n' ∉ name := by
  induction s generalizing name with
  | nil => simp [lazyToBracket] at h
  | cons c cs ih =>
    unfold lazyToBracket at h
    by_cases hc : c = ']'
    · simp [hc] at h
      obtain ⟨rfl, rfl⟩ := h
      simp
    · by_cases hn : c = '\n'
      · simp [hc, hn] at h
      · simp only [hc, hn, if_false] at h
        cases hr : lazyToBracket cs with
        | none => simp [hr] at h
        | some p =>
          obtain ⟨body, r⟩ := p
          simp [hr] at h
          obtain ⟨rfl, rfl⟩ := h
          obtain ⟨h1, h2⟩ := ih body hr
          constructor
          · intro hm
            rcases List.mem_cons.mp hm with hm | hm
            · exact hc hm.symm
            · exact h1 hm
          · intro hm
            rcases List.mem_cons.mp hm with hm | hm
            · exact hn hm.symm
            · exact h2 hm

theorem matchBracketed_iff (s name r : List Char) :
    matchBracketed s = some (name, r) ↔ BracketAt s name r := by
  constructor
  · intro h
    refine ⟨matchBracketed_sound s name r h, ?_⟩
    cases s with
    | nil => simp [matchBracketed] at h
    | cons c cs =>
      unfold matchBracketed at h
      by_cases hc : c = '['
      · simp only [hc, if_true] at h
        exact lazyToBracket_name cs name r h
      · simp [hc] at h
  · rintro ⟨rfl, h1, h2⟩
    exact matchBracketed_token name r h1 h2

theorem matchItem_name (s digits name rest : List Char)
    (h : matchItem s = some (digits, name, rest)) : ']' ∉ name ∧ '\n' ∉ name := by
  unfold matchItem at h
  cases hp : matchCountPrefix s with
  | none =>
    simp only [hp] at h
    cases hb : matchBracketed s with
    | none => simp [hb] at h
    | some p =>
      obtain ⟨n, r⟩ := p
      simp [hb] at h
      obtain ⟨rfl, rfl, rfl⟩ := h
      exact ((matchBracketed_iff s n r).mp hb).2
  | some p =>
    obtain ⟨d, r⟩ := p
    simp only [hp] at h
    cases hb : matchBracketed r with
    | none =>
      simp only [hb] at h
      cases hb2 : matchBracketed s with
      | none => simp [hb2] at h
      | some q =>
        obtain ⟨n, r2⟩ := q
        simp [hb2] at h
        obtain ⟨rfl, rfl, rfl⟩ := h
        exact ((matchBracketed_iff s n r2).mp hb2).2
    | some q =>
      obtain ⟨n, r2⟩ := q
      simp [hb] at h
      obtain ⟨rfl, rfl, rfl⟩ := h
      exact ((matchBracketed_iff r n r2).mp hb).2

theorem matchItem_iff (s : List Char) (a : List Char × List Char) (r : List Char) :
    matchItem s = some (a.1, a.2, r) ↔ ItemAt s a r := by
  constructor
  · intro h
    obtain ⟨h1, h2⟩ := matchItem_sound s a.1 a.2 r h
    exact ⟨h1, h2, matchItem_name s a.1 a.2 r h⟩
  · rintro ⟨hs, hd, h1, h2⟩
    rw [hs]
    exact matchItem_token a.1 a.2 r hd h1 h2

theorem Occurrences.unique {α : Type} {P : List Char → α → List Char → Prop}
    (hfun : ∀ s a r a' r', P s a r → P s a' r' → a = a' ∧ r = r')
    {s : List Char} {ts ts' : List α} (h : Occurrences P s ts) (h' : Occurrences P s ts') :
    ts = ts' := by
  induction h generalizing ts' with
  | done hn =>
    cases h' with
    | done => rfl
    | here s a r ts hp ho => exact absurd hp (hn a r)
  | here s a r ts hp ho ih =>
    cases h' with
    | done hn => exact absurd hp (hn a r)
    | here s a' r' ts' hp' ho' =>
      obtain ⟨rfl, rfl⟩ := hfun _ _ _ _ _ hp hp'
      rw [ih ho']
    | skip c cs ts' hn ho' => exact absurd hp (hn a r)
  | skip c cs ts hn ho ih =>
    cases h' with
    | here s a' r' ts' hp' ho' => exact absurd hp' (hn a' r')
    | skip c cs ts' hn' ho' => exact ih ho'

theorem itemAt_functional (s : List Char) (a : List Char × List Char) (r : List Char)
    (a' : List Char × List Char) (r' : List Char) (h : ItemAt s a r) (h' : ItemAt s a' r') :
    a = a' ∧ r = r' := by
  have h1 := (matchItem_iff s a r).mpr h
  have h2 := (matchItem_iff s a' r').mpr h'
  rw [h1] at h2
  simp only [Option.some.injEq, Prod.mk.injEq] at h2
  exact ⟨Prod.ext h2.1 h2.2.1, h2.2.2⟩

theorem bracketAt_functional (s name r name' r' : List Char) (h : BracketAt s name r)
    (h' : BracketAt s name' r') : name = name' ∧ r = r' := by
  have h1 := (matchBracketed_iff s name r).mpr h
  have h2 := (matchBracketed_iff s name' r').mpr h'
  rw [h1] at h2
  simpa using h2

theorem findAllItems_occurrences (f : Nat) (s : List Char) (hf : s.length ≤ f) :
    Occurrences ItemAt s (findAllItems f s) := by
  induction f generalizing s with
  | zero =>
    have hs : s = [] := List.length_eq_zero.mp (by omega)
    subst hs
    exact Occurrences.done (fun a r h => by
      have := (matchItem_iff [] a r).mpr h
      rw [matchItem_nil] at this
      exact absurd this (by simp))
  | succ f ih =>
    simp only [findAllItems]
    cases hm : matchItem s with
    | some m =>
      obtain ⟨d, n, r⟩ := m
      have hlt := matchItem_rest_lt s d n r hm
      exact Occurrences.here s (d, n) r _ ((matchItem_iff s (d, n) r).mp hm) (ih r (by omega))
    | none =>
      have hn : ∀ a r, ¬ ItemAt s a r := fun a r h => by
        have := (matchItem_iff s a r).mpr h
        rw [hm] at this
        exact absurd this (by simp)
      cases s with
      | nil => exact Occurrences.done hn
      | cons c cs => exact Occurrences.skip c cs _ hn (ih cs (by simpa using hf))

theorem findAllBracketed_occurrences (f : Nat) (s : List Char) (hf : s.length ≤ f) :
    Occurrences BracketAt s (findAllBracketed f s) := by
  induction f generalizing s with
  | zero =>
    have hs : s = [] := List.length_eq_zero.mp (by omega)
    subst hs
    exact Occurrences.done (fun a r h => by
      have := (matchBracketed_iff [] a r).mpr h
      rw [matchBracketed_nil] at this
      exact absurd this (by simp))
  | succ f ih =>
    simp only [findAllBracketed]
    cases hm : matchBracketed s with
    | some m =>
      obtain ⟨n, r⟩ := m
      have hlt := matchBracketed_rest_lt s n r hm
      exact Occurrences.here s n r _ ((matchBracketed_iff s n r).mp hm) (ih r (by omega))
    | none =>
      have hn : ∀ a r, ¬ BracketAt s a r := fun a r h => by
        have := (matchBracketed_iff s a r).mpr h
        rw [hm] at this
        exact absurd this (by simp)
      cases s with
      | nil => exact Occurrences.done hn
      | cons c cs => exact Occurrences.skip c cs _ hn (ih cs (by simpa using hf))

theorem ParseGeneric_occurrences (s : String) (ts : List (List Char × List Char))
    (h : Occurrences ItemAt s.data ts) : ParseGeneric s = ts.map itemGroup := by
  have h' := findAllItems_occurrences s.length s.data (le_refl _)
  rw [Occurrences.unique itemAt_functional h h']
  rfl

theorem ParseInscription_occurrences (s : String) (stacksText list : List Char) (u : Nat)
    (names : List (List Char)) (hm : findInscript s.data = some (stacksText, list))
    (hu : parseFloat64 stacksText = some u) (h : Occurrences BracketAt list names) :
    ParseInscription s = some (names.map (fun name => [⟨String.mk name, ceilTimes20 u⟩])) := by
  have h' := findAllBracketed_occurrences list.length list (le_refl _)
  rw [Occurrences.unique bracketAt_functional h h']
  unfold ParseInscription
  simp only [hm, hu]

theorem afterLastFollowing_isSome (s a b : List Char)
    (h : s.takeWhile (fun x => x ≠ '\n') = a ++ (followingLit ++ b)) :
    (afterLastFollowing s).isSome = true := by
  induction a generalizing s with
  | nil =>
    cases s with
    | nil => rw [followingLit_eq] at h; simp at h
    | cons c cs =>
      have hc : c ≠ '\n' := by
        intro hc
        rw [hc, followingLit_eq] at h
        simp [List.takeWhile_cons] at h
      have hp : followingLit.isPrefixOf (c :: cs) = true := by
        apply List.isPrefixOf_iff_prefix.mpr
        have h1 : followingLit <+: (c :: cs).takeWhile (fun x => x ≠ '\n') :=
          ⟨b, by rw [h]; rfl⟩
        exact h1.trans (List.takeWhile_prefix _)
      unfold afterLastFollowing
      simp only [hc, if_false]
      cases afterLastFollowing cs with
      | some l => rfl
      | none => simp [hp]
  | cons x a ih =>
    cases s with
    | nil => simp at h
    | cons c cs =>
      have hc : c ≠ '\n' := by
        intro hc
        rw [hc] at h
        simp [List.takeWhile_cons] at h
      have htw : (c :: cs).takeWhile (fun x => x ≠ '\n') =
          c :: cs.takeWhile (fun x => x ≠ '\n') := by
        simp [List.takeWhile_cons, hc]
      rw [htw] at h
      simp only [List.cons_append, List.cons.injEq] at h
      have := ih cs h.2
      unfold afterLastFollowing
      simp only [hc, if_false]
      cases hr : afterLastFollowing cs with
      | some l => rfl
      | none => rw [hr] at this; simp at this

theorem afterLastFollowing_sound (s list : List Char)
    (h : afterLastFollowing s = some list) :
    ∃ mid rest, s = mid ++ (followingLit ++ (list ++ rest)) ∧ '\n' ∉ mid ∧ '\n' ∉ list ∧
      (rest = [] ∨ rest.head? = some '\n') ∧ ¬ followingLit <:+: list := by
  induction s with
  | nil => simp [afterLastFollowing] at h
  | cons c cs ih =>
    unfold afterLastFollowing at h
    by_cases hc : c = '\n'
    · simp [hc] at h
    · simp only [hc, if_false] at h
      cases hr : afterLastFollowing cs with
      | some l =>
        simp only [hr, Option.some.injEq] at h
        subst h
        obtain ⟨mid, rest, hs, hm, hl, hrest, hf⟩ := ih hr
        refine ⟨c :: mid, rest, by rw [hs]; rfl, ?_, hl, hrest, hf⟩
        intro hmem
        rcases List.mem_cons.mp hmem with hmem | hmem
        · exact hc hmem.symm
        · exact hm hmem
      | none =>
        simp only [hr] at h
        by_cases hp : followingLit.isPrefixOf (c :: cs) = true
        · simp only [hp, if_true, Option.some.injEq] at h
          obtain ⟨b, hb⟩ := List.isPrefixOf_iff_prefix.mp hp
          have hd : (c :: cs).drop followingLit.length = b := by
            rw [← hb, List.drop_left]
          rw [hd] at h
          subst h
          have hsplit := List.takeWhile_append_dropWhile (fun x => decide (x ≠ '\n')) b
          refine ⟨[], b.dropWhile (fun x => x ≠ '\n'), ?_, by simp, ?_, ?_, ?_⟩
          · rw [List.nil_append, hsplit, hb]
          · intro hmem
            have := List.mem_takeWhile_imp hmem
            simp at this
          · cases hdw : b.dropWhile (fun x => x ≠ '\n') with
            | nil => exact Or.inl rfl
            | cons y ys =>
              right
              have := List.head?_dropWhile_not (fun x => decide (x ≠ '\n')) b
              rw [hdw] at this
              simp at this
              simp [this]
          · intro hinf
            obtain ⟨a', b', hab⟩ := hinf
            have hcs : cs = followingLit.tail ++ b := by
              have : c :: cs = 'f' :: (followingLit.tail ++ b) := by
                rw [← hb, followingLit_eq]; rfl
              exact (List.cons.inj this).2
            have htw : cs.takeWhile (fun x => x ≠ '\n') =
                followingLit.tail ++ b.takeWhile (fun x => x ≠ '\n') := by
              rw [hcs, List.takeWhile_append_of_pos (by
                intro x hx
                simpa using fun hn : x = '\n' =>
                  (by decide : '\n' ∉ followingLit.tail) (hn ▸ hx))]
            have hsome := afterLastFollowing_isSome cs (followingLit.tail ++ a') b' (by
              rw [htw, ← hab]
              simp)
            rw [hr] at hsome
            simp at hsome
        · simp [hp] at h

theorem matchInscript_iff (s : List Char) (a : List Char × List Char) :
    matchInscript s = some a ↔ InscriptAt s a := by
  constructor
  · intro h
    unfold matchInscript at h
    have hs := List.takeWhile_append_dropWhile isNumDot s
    have hd : ∀ c ∈ s.takeWhile isNumDot, isNumDot c = true := fun c hc =>
      List.mem_takeWhile_imp hc
    split at h
    · simp at h
    · rename_i d ds rest h1 h2
      cases hr : afterLastFollowing rest with
      | none => simp [hr] at h
      | some list =>
        simp only [hr, Option.some.injEq] at h
        subst h
        obtain ⟨mid, rest', hs', hm, hl, hrest, hf⟩ := afterLastFollowing_sound rest list hr
        rw [h1, h2] at hs
        rw [h1] at hd
        refine ⟨mid, rest', ?_, by simp, hd, hm, hl, hrest, hf⟩
        rw [← hs, hs']
        rfl
    · simp at h
  · rintro ⟨mid, rest, hs, hn, hnd, hm, hl, hr, hf⟩
    rw [hs]
    exact matchInscript_found a.1 mid a.2 rest hn hnd hm hl hr hf

theorem findInscript_first (s : List Char) (a : List Char × List Char)
    (h : findInscript s = some a) : FirstOccurrence InscriptAt s a := by
  induction s with
  | nil => simp [findInscript] at h
  | cons c cs ih =>
    unfold findInscript at h
    cases hm : matchInscript (c :: cs) with
    | some m =>
      simp only [hm, Option.some.injEq] at h
      subst h
      exact FirstOccurrence.here _ _ ((matchInscript_iff _ _).mp hm)
    | none =>
      simp only [hm] at h
      refine FirstOccurrence.skip c cs a (fun a' ha' => ?_) (ih h)
      have := (matchInscript_iff _ _).mpr ha'
      rw [hm] at this
      exact absurd this (by simp)

theorem findInscript_of_first (s : List Char) (a : List Char × List Char)
    (h : FirstOccurrence InscriptAt s a) : findInscript s = some a := by
  induction h with
  | here s a hp =>
    have hm := (matchInscript_iff _ _).mpr hp
    cases s with
    | nil => simp [matchInscript] at hm
    | cons c cs => simp [findInscript, hm]
  | skip c cs a hn _ ih =>
    have hm : matchInscript (c :: cs) = none := by
      cases hm : matchInscript (c :: cs) with
      | none => rfl
      | some m => exact absurd ((matchInscript_iff _ _).mp hm) (hn m)
    simp [findInscript, hm, ih]

theorem findInscript_none_iff (s : List Char) :
    findInscript s = none ↔ ∀ t, t <:+ s → ∀ a, ¬ InscriptAt t a := by
  induction s with
  | nil =>
    constructor
    · intro _ t ht a ha
      have ht' : t = [] := List.suffix_nil.mp ht
      subst ht'
      have := (matchInscript_iff _ _).mpr ha
      simp [matchInscript] at this
    · intro _; rfl
  | cons c cs ih =>
    constructor
    · intro h t ht a ha
      unfold findInscript at h
      cases hm : matchInscript (c :: cs) with
      | some m => simp [hm] at h
      | none =>
        simp only [hm] at h
        rcases List.suffix_cons_iff.mp ht with rfl | ht'
        · have := (matchInscript_iff _ _).mpr ha
          rw [hm] at this
          exact absurd this (by simp)
        · exact (ih.mp h) t ht' a ha
    · intro h
      have hm : matchInscript (c :: cs) = none := by
        cases hm : matchInscript (c :: cs) with
        | none => rfl
        | some m =>
          exact absurd ((matchInscript_iff _ _).mp hm) (h _ (List.suffix_refl _) m)
      have hrec := ih.mpr (fun t ht a ha => h t (ht.trans (List.suffix_cons c cs)) a ha)
      simp [findInscript, hm, hrec]

theorem occurrences_nil {α : Type} {P : List Char → α → List Char → Prop} (s : List Char)
    (h : ∀ t, t <:+ s → ∀ a r, ¬ P t a r) : Occurrences P s [] := by
  induction s with
  | nil => exact Occurrences.done (h [] (List.suffix_refl _))
  | cons c cs ih =>
    exact Occurrences.skip c cs [] (h _ (List.suffix_refl _))
      (ih (fun t ht => h t (ht.trans (List.suffix_cons c cs))))

theorem ParseGeneric_no_token (s : String) (h : ∀ t, t <:+ s.data → ∀ a r, ¬ ItemAt t a r) :
    ParseGeneric s = [] :=
  ParseGeneric_occurrences s [] (occurrences_nil s.data h)

theorem ParseInscription_no_match (s : String)
    (h : ∀ t, t <:+ s.data → ∀ a, ¬ InscriptAt t a) : ParseInscription s = none := by
  unfold ParseInscription
  rw [(findInscript_none_iff s.data).mpr h]

theorem ParseInscription_bad_number (s : String) (num list : List Char)
    (h : FirstOccurrence InscriptAt s.data (num, list)) (hu : parseFloat64 num = none) :
    ParseInscription s = some [] := by
  unfold ParseInscription
  simp only [findInscript_of_first s.data _ h, hu]

theorem ParseInscription_first (s : String) (num list : List Char) (u : Nat)
    (names : List (List Char)) (h : FirstOccurrence InscriptAt s.data (num, list))
    (hu : parseFloat64 num = some u) (hn : Occurrences BracketAt list names) :
    ParseInscription s = some (names.map (fun name => [⟨String.mk name, ceilTimes20 u⟩])) :=
  ParseInscription_occurrences s num list u names (findInscript_of_first s.data _ h) hu hn

/-! ## The stack count of a short decimal -/

theorem bitLengthAux_spec (f n : Nat) (h : n ≤ f) (hn : 0 < n) :
    0 < bitLengthAux f n ∧ 2 ^ (bitLengthAux f n - 1) ≤ n ∧ n < 2 ^ bitLengthAux f n := by
  induction f generalizing n with
  | zero => omega
  | succ f ih =>
    unfold bitLengthAux
    have hn0 : n ≠ 0 := by omega
    simp only [hn0, if_false]
    by_cases h1 : n / 2 = 0
    · have hn1 : n = 1 := by omega
      subst hn1
      cases f with
      | zero => simp [bitLengthAux]
      | succ f => simp [bitLengthAux]
    · obtain ⟨hp, hlo, hhi⟩ := ih (n / 2) (by omega) (by omega)
      refine ⟨by omega, ?_, ?_⟩
      · have e : bitLengthAux f (n / 2) + 1 - 1 = (bitLengthAux f (n / 2) - 1) + 1 := by omega
        rw [e, Nat.pow_succ]
        omega
      · rw [Nat.pow_succ]
        omega

theorem bitLength_spec (n : Nat) (hn : 0 < n) :
    0 < bitLength n ∧ 2 ^ (bitLength n - 1) ≤ n ∧ n < 2 ^ bitLength n :=
  bitLengthAux_spec n n (le_refl _) hn

theorem bitLength_le (n k : Nat) (h : n < 2 ^ k) : bitLength n ≤ k :=
  bitLengthAux_le n n k h

theorem bitLength_gt (n k : Nat) (h : 2 ^ k ≤ n) : k < bitLength n := by
  have hn : 0 < n := Nat.lt_of_lt_of_le (Nat.two_pow_pos k) h
  obtain ⟨-, -, hhi⟩ := bitLength_spec n hn
  by_contra hc
  have : 2 ^ bitLength n ≤ 2 ^ k := Nat.pow_le_pow_right (by norm_num) (by omega)
  omega

theorem roundHalfEven_bounds (n d : Nat) (hd : 0 < d) :
    2 * (roundHalfEven n d * d) ≤ 2 * n + d ∧ 2 * n ≤ 2 * (roundHalfEven n d * d) + d := by
  unfold roundHalfEven
  have hdm := Nat.div_add_mod n d
  have hr := Nat.mod_lt n hd
  have e1 : (n / d + 1) * d = d * (n / d) + d := by ring
  have e2 : n / d * d = d * (n / d) := by ring
  split
  · rename_i hc
    rw [e1]
    constructor <;> omega
  · rename_i hc
    rw [e2]
    constructor <;> omega

/-- Rounding a quotient that lies within half a step of a whole number `m`,
an even one in case of a tie, gives `m`. -/
theorem roundHalfEven_above (m d e : Nat) (hd : 0 < d) (he : 2 * e ≤ d)
    (htie : 2 * e = d → m % 2 = 0) : roundHalfEven (m * d + e) d = m := by
  unfold roundHalfEven
  have hlt : e < d := by omega
  have hq : (m * d + e) / d = m := by
    rw [Nat.mul_comm, Nat.mul_add_div hd, Nat.div_eq_of_lt hlt]; rfl
  have hr : (m * d + e) % d = e := by
    rw [Nat.mul_comm, Nat.mul_add_mod, Nat.mod_eq_of_lt hlt]
  rw [hq, hr]
  have : ¬ (2 * e > d ∨ 2 * e = d ∧ m % 2 = 1) := by
    intro h
    rcases h with h | ⟨h1, h2⟩
    · omega
    · have := htie h1; omega
  simp only [this, if_false]

theorem roundHalfEven_below (m d e n : Nat) (hd : 0 < d) (hn : n + e = m * d) (he0 : 0 < e)
    (he : 2 * e ≤ d) (htie : 2 * e = d → m % 2 = 0) : roundHalfEven n d = m := by
  unfold roundHalfEven
  have hm : 0 < m := by
    rcases Nat.eq_zero_or_pos m with h | h
    · subst h; omega
    · exact h
  obtain ⟨m', rfl⟩ : ∃ m', m = m' + 1 := ⟨m - 1, by omega⟩
  have hn' : n = d * m' + (d - e) := by
    have : (m' + 1) * d = d * m' + d := by ring
    omega
  have hlt : d - e < d := by omega
  have hq : n / d = m' := by
    rw [hn', Nat.mul_add_div hd, Nat.div_eq_of_lt hlt]; rfl
  have hr : n % d = d - e := by
    rw [hn', Nat.mul_add_mod, Nat.mod_eq_of_lt hlt]
  rw [hq, hr]
  have : (2 * (d - e) > d ∨ 2 * (d - e) = d ∧ m' % 2 = 1) := by
    by_cases h : 2 * e = d
    · right
      have := htie h
      omega
    · left; omega
  simp only [this, if_true]

theorem two_pow_split (a b : Nat) (h : a ≤ b) : 2 ^ b = 2 ^ a * 2 ^ (b - a) := by
  rw [← Nat.pow_add]
  congr 1
  omega

theorem float64One_eq (a : Nat) (h : a ≤ 1074) : float64One = 2 ^ a * 2 ^ (1074 - a) := by
  unfold float64One
  exact two_pow_split a 1074 h

theorem float64One_pos : 0 < float64One := by
  rw [float64One_eq 0 (Nat.zero_le _)]
  exact Nat.mul_pos (Nat.two_pow_pos _) (Nat.two_pow_pos _)

theorem roundUnits_some (N D u : Nat) (hD : 0 < D) (h : roundUnits N D = some u) :
    ∃ m, u = m * 2 ^ (bitLength (N / D) - 53) ∧
      2 * (u * D) ≤ 2 * N + D * 2 ^ (bitLength (N / D) - 53) ∧
      2 * N ≤ 2 * (u * D) + D * 2 ^ (bitLength (N / D) - 53) := by
  unfold roundUnits at h
  simp only at h
  split at h
  · simp at h
  · have hu := Option.some.inj h
    have hb := roundHalfEven_bounds N (D * 2 ^ (bitLength (N / D) - 53))
      (Nat.mul_pos hD (Nat.two_pow_pos _))
    refine ⟨_, hu.symm, ?_, ?_⟩
    · rw [← hu]
      have e : roundHalfEven N (D * 2 ^ (bitLength (N / D) - 53)) *
          2 ^ (bitLength (N / D) - 53) * D =
          roundHalfEven N (D * 2 ^ (bitLength (N / D) - 53)) *
            (D * 2 ^ (bitLength (N / D) - 53)) := by ring
      rw [e]
      exact hb.1
    · rw [← hu]
      have e : roundHalfEven N (D * 2 ^ (bitLength (N / D) - 53)) *
          2 ^ (bitLength (N / D) - 53) * D =
          roundHalfEven N (D * 2 ^ (bitLength (N / D) - 53)) *
            (D * 2 ^ (bitLength (N / D) - 53)) := by ring
      rw [e]
      exact hb.2

theorem roundUnits_of_lt (N D : Nat)
    (h : roundHalfEven N (D * 2 ^ (bitLength (N / D) - 53)) * 2 ^ (bitLength (N / D) - 53) <
      float64Overflow) :
    roundUnits N D = some (roundHalfEven N (D * 2 ^ (bitLength (N / D) - 53)) *
      2 ^ (bitLength (N / D) - 53)) := by
  unfold roundUnits
  simp only
  rw [if_neg (by omega)]

/-- The ceiling of a number of units in `((k - 1) * one, k * one]` is `k`. -/
theorem ceil_units (z k w : Nat) (hw : 0 < w) (h1 : z ≤ k * w) (h2 : k * w < z + w) :
    (z + (w - 1)) / w = k := by
  apply Nat.div_eq_of_lt_le
  · omega
  · have : (k + 1) * w = k * w + w := by ring
    omega

theorem float64One_lt_overflow (K : Nat) (hK : K < 2 ^ 53) :
    K * float64One < float64Overflow := by
  have h := mul_two_pow_lt K 1074 2098 hK (by omega)
  exact h

/-- The product with 20 of the `float64` nearest to `K / 20` is rounded to `K`. -/
theorem roundUnits_twentieth (N D K u : Nat) (hD : 0 < D)
    (h20 : 20 * N = K * float64One * D) (hK1 : 1 ≤ K) (hK : K < 2 ^ 51)
    (hu : roundUnits N D = some u) : roundUnits (20 * u) 1 = some (K * float64One) := by
  obtain ⟨m, hum, hb1, hb2⟩ := roundUnits_some N D u hD hu
  have hWpos := float64One_pos
  -- the quotient `q` of the units
  have hqa : N / D * D ≤ N := Nat.div_mul_le_self N D
  have hqb : N < N / D * D + D := Nat.lt_div_mul_add hD
  have hspec := fun h => bitLength_spec (N / D) h
  generalize hq : N / D = q at hqa hqb hum hb1 hb2 hspec
  have hq20 : 20 * q ≤ K * float64One := by
    apply Nat.le_of_mul_le_mul_right _ hD
    calc 20 * q * D = 20 * (q * D) := by ring
      _ ≤ 20 * N := Nat.mul_le_mul_left 20 hqa
      _ = K * float64One * D := h20
  have hq20' : K * float64One < 20 * q + 20 := by
    apply Nat.lt_of_mul_lt_mul_right (a := D)
    calc K * float64One * D = 20 * N := h20.symm
      _ < 20 * (q * D + D) := Nat.mul_lt_mul_of_pos_left hqb (by norm_num)
      _ = (20 * q + 20) * D := by ring
  have hKW : float64One ≤ K * float64One := Nat.le_mul_of_pos_left _ hK1
  -- `2^1069 ≤ q < 2^1121`
  have hlow : 2 ^ 1069 ≤ q := by
    have hW := float64One_eq 5 (by norm_num)
    have hP : 2 ^ 1 ≤ 2 ^ (1074 - 5) := Nat.pow_le_pow_right (by norm_num) (by norm_num)
    have e : (1074 - 5) = 1069 := by norm_num
    rw [e] at hW hP
    generalize (2 : Nat) ^ 1069 = P at hW hP ⊢
    norm_num at hW hP
    omega
  have hhigh : q < 2 ^ 1121 := by
    have h1 : K * float64One < 2 ^ 51 * float64One :=
      Nat.mul_lt_mul_of_pos_right hK hWpos
    have hW := float64One_eq 1070 (by norm_num)
    have e : (1074 - 1070) = 4 := by norm_num
    rw [e] at hW
    have e2 : (2 : Nat) ^ 51 * 2 ^ 1070 = 2 ^ 1121 := by rw [← Nat.pow_add]
    generalize (2 : Nat) ^ 1121 = P at e2 ⊢
    generalize (2 : Nat) ^ 1070 = Q at hW e2
    norm_num at hW e2
    omega
  have hbl : 1069 < bitLength q := bitLength_gt q 1069 hlow
  have hbh : bitLength q ≤ 1121 := bitLength_le q 1121 hhigh
  obtain ⟨-, hs1, -⟩ := hspec (Nat.lt_of_lt_of_le (Nat.two_pow_pos _) hlow)
  obtain ⟨t, ht⟩ : ∃ t, bitLength q = t + 53 := ⟨bitLength q - 53, by omega⟩
  have ht1 : bitLength q - 53 = t := by omega
  have ht2 : bitLength q - 1 = t + 52 := by omega
  rw [ht1] at hum hb1 hb2
  rw [ht2, Nat.pow_add] at hs1
  have htle : t ≤ 1068 := by omega
  -- `20 u` is within `10 g` of `K W`
  have hc1 : 20 * u ≤ K * float64One + 10 * 2 ^ t := by
    apply Nat.le_of_mul_le_mul_right _ hD
    calc 20 * u * D = 10 * (2 * (u * D)) := by ring
      _ ≤ 10 * (2 * N + D * 2 ^ t) := Nat.mul_le_mul_left 10 hb1
      _ = 20 * N + 10 * 2 ^ t * D := by ring
      _ = (K * float64One + 10 * 2 ^ t) * D := by rw [h20]; ring
  have hc2 : K * float64One ≤ 20 * u + 10 * 2 ^ t := by
    apply Nat.le_of_mul_le_mul_right _ hD
    calc K * float64One * D = 20 * N := h20.symm
      _ = 10 * (2 * N) := by ring
      _ ≤ 10 * (2 * (u * D) + D * 2 ^ t) := Nat.mul_le_mul_left 10 hb2
      _ = (20 * u + 10 * 2 ^ t) * D := by ring
  -- on the grid of `u`, of step `g`
  have hWg : float64One = 2 ^ t * (4 * 2 ^ (1072 - t)) := by
    rw [float64One_eq t (by omega), two_pow_split 2 (1074 - t) (by omega)]
    have e : 1074 - t - 2 = 1072 - t := by omega
    rw [e]
    norm_num
  have hgpos : 0 < 2 ^ t := Nat.two_pow_pos t
  generalize (2 : Nat) ^ (1072 - t) = A' at hWg
  generalize hg : (2 : Nat) ^ t = g at hum hb1 hb2 hs1 hc1 hc2 hWg hgpos
  have hd1 : 20 * m ≤ 4 * (K * A') + 10 := by
    apply Nat.le_of_mul_le_mul_right _ hgpos
    calc 20 * m * g = 20 * u := by rw [hum]; ring
      _ ≤ K * float64One + 10 * g := hc1
      _ = (4 * (K * A') + 10) * g := by rw [hWg]; ring
  have hd2 : 4 * (K * A') ≤ 20 * m + 10 := by
    apply Nat.le_of_mul_le_mul_right _ hgpos
    calc 4 * (K * A') * g = K * float64One := by rw [hWg]; ring
      _ ≤ 20 * u + 10 * g := hc2
      _ = (20 * m + 10) * g := by rw [hum]; ring
  have hd3 : 20 * 2 ^ 52 ≤ 4 * (K * A') := by
    apply Nat.le_of_mul_le_mul_right _ hgpos
    calc 20 * 2 ^ 52 * g = 20 * (g * 2 ^ 52) := by ring
      _ ≤ 20 * q := Nat.mul_le_mul_left 20 hs1
      _ ≤ K * float64One := hq20
      _ = 4 * (K * A') * g := by rw [hWg]; ring
  have hKWg : K * float64One = 4 * (K * A') * g := by rw [hWg]; ring
  have h20u : 20 * u = 20 * m * g := by rw [hum]; ring
  generalize K * A' = A at hd1 hd2 hd3 hKWg
  have he1 : 20 * u ≤ K * float64One + 8 * g := by
    rw [h20u, hKWg]
    calc 20 * m * g ≤ (4 * A + 8) * g := Nat.mul_le_mul_right g (by omega)
      _ = 4 * A * g + 8 * g := by ring
  have he2 : K * float64One ≤ 20 * u + 8 * g := by
    rw [h20u, hKWg]
    calc 4 * A * g ≤ (20 * m + 8) * g := Nat.mul_le_mul_right g (by omega)
      _ = 20 * m * g + 8 * g := by ring
  -- the binary length of `20 u`
  have hlow' : 2 ^ (t + 56) ≤ 20 * u := by
    rw [h20u, Nat.pow_add, hg]
    calc g * 2 ^ 56 = 2 ^ 56 * g := by ring
      _ ≤ 20 * m * g := Nat.mul_le_mul_right g (by norm_num at hd3 ⊢; omega)
  have hgW : g ≤ float64One := by
    rw [hWg]
    exact Nat.le_mul_of_pos_right g (by
      have : 0 < A' ∨ A' = 0 := by omega
      rcases this with h | h
      · omega
      · subst h; simp at hWg; omega)
  have hhigh' : 20 * u < 2 ^ 1126 := by
    have h1 : (K + 8) * float64One < 2 ^ 52 * float64One :=
      Nat.mul_lt_mul_of_pos_right (by norm_num at hK ⊢; omega) hWpos
    have h2 : 20 * u ≤ (K + 8) * float64One := by
      calc 20 * u ≤ K * float64One + 8 * g := he1
        _ ≤ K * float64One + 8 * float64One := by omega
        _ = (K + 8) * float64One := by ring
    have e2 : (2 : Nat) ^ 52 * float64One = 2 ^ 1126 := by
      unfold float64One
      rw [← Nat.pow_add]
    omega
  have hbl' : t + 56 < bitLength (20 * u) := bitLength_gt _ _ hlow'
  have hbh' : bitLength (20 * u) ≤ 1126 := bitLength_le _ _ hhigh'
  obtain ⟨s, hs⟩ : ∃ s, bitLength (20 * u) - 53 = t + 4 + s :=
    ⟨bitLength (20 * u) - 53 - (t + 4), by omega⟩
  have hsle : t + 4 + s ≤ 1073 := by omega
  -- `K W` on the grid of the product, of step `g' = 16 g 2^s`
  have hg' : 2 ^ (t + 4 + s) = 16 * g * 2 ^ s := by
    rw [Nat.pow_add, Nat.pow_add, hg]
    norm_num
    ring
  have hWg' : float64One = 2 ^ (t + 4 + s) * (2 * 2 ^ (1073 - (t + 4 + s))) := by
    rw [float64One_eq (t + 4 + s) (by omega), two_pow_split 1 (1074 - (t + 4 + s)) (by omega)]
    have e : 1074 - (t + 4 + s) - 1 = 1073 - (t + 4 + s) := by omega
    rw [e]
    norm_num
  have hspos : 0 < 2 ^ s := Nat.two_pow_pos s
  generalize (2 : Nat) ^ (1073 - (t + 4 + s)) = R at hWg'
  have hKM : K * float64One = (K * (2 * R)) * 2 ^ (t + 4 + s) := by
    rw [hWg']; ring
  have hMeven : (K * (2 * R)) % 2 = 0 := by
    have : K * (2 * R) = 2 * (K * R) := by ring
    rw [this]
    exact Nat.mul_mod_right 2 _
  have hgle : 16 * g ≤ 2 ^ (t + 4 + s) := by
    rw [hg']
    exact Nat.le_mul_of_pos_right _ hspos
  have hround : roundHalfEven (20 * u) (1 * 2 ^ (t + 4 + s)) = K * (2 * R) := by
    rw [Nat.one_mul]
    rcases Nat.le_total (K * float64One) (20 * u) with hle | hle
    · obtain ⟨e, he⟩ : ∃ e, 20 * u = K * float64One + e := ⟨20 * u - K * float64One, by omega⟩
      rw [he, hKM]
      exact roundHalfEven_above _ _ e (Nat.two_pow_pos _) (by omega) (fun _ => hMeven)
    · rcases Nat.eq_or_lt_of_le hle with heq | hlt
      · rw [heq, hKM]
        have := roundHalfEven_above (K * (2 * R)) (2 ^ (t + 4 + s)) 0 (Nat.two_pow_pos _)
          (by omega) (fun _ => hMeven)
        simpa using this
      · obtain ⟨e, he⟩ : ∃ e, 20 * u + e = K * float64One := ⟨K * float64One - 20 * u, by omega⟩
        exact roundHalfEven_below _ _ e _ (Nat.two_pow_pos _) (by rw [he, hKM]) (by omega)
          (by omega) (fun _ => hMeven)
  have hdiv : 20 * u / 1 = 20 * u := Nat.div_one _
  have hfin := roundUnits_of_lt (20 * u) 1 (by
    rw [hdiv, hs, hround, ← hKM]
    exact float64One_lt_overflow K (by
      have : (2 : Nat) ^ 51 ≤ 2 ^ 53 := Nat.pow_le_pow_right (by norm_num) (by norm_num)
      omega))
  rw [hdiv, hs, hround, ← hKM] at hfin
  exact hfin

theorem ten_pow_le (k : Nat) (hk : k ≤ 300) : 10 ^ k * 2 ^ 77 ≤ float64One := by
  have h1 : 10 ^ k ≤ 10 ^ 300 := Nat.pow_le_pow_right (by norm_num) hk
  have h2 : 10 ^ 300 ≤ 2 ^ 997 := by decide!
  have h3 : float64One = 2 ^ 997 * 2 ^ (1074 - 997) := float64One_eq 997 (by norm_num)
  have e : 1074 - 997 = 77 := by norm_num
  rw [e] at h3
  rw [h3]
  exact Nat.mul_le_mul_right _ (h1.trans h2)

/-- The product with 20 of the `float64` nearest to a short decimal stays on the
same side of the whole numbers as the decimal's own product with 20. -/
theorem roundUnits_between (n k K u : Nat) (hn : 1 ≤ n) (hk : k ≤ 300)
    (hn51 : 20 * n < 2 ^ 51) (h1 : 20 * n + 1 ≤ K * 10 ^ k)
    (h2 : K * 10 ^ k + 1 ≤ 20 * n + 10 ^ k)
    (hu : roundUnits (n * float64One) (10 ^ k) = some u) :
    ∃ z, roundUnits (20 * u) 1 = some z ∧ z ≤ K * float64One ∧
      K * float64One < z + float64One := by
  have hD : 0 < 10 ^ k := Nat.pos_pow_of_pos k (by norm_num)
  obtain ⟨m, hum, hb1, hb2⟩ := roundUnits_some _ _ u hD hu
  have hWpos := float64One_pos
  have hqa : n * float64One / 10 ^ k * 10 ^ k ≤ n * float64One := Nat.div_mul_le_self _ _
  have hqlow : 2 ^ 77 ≤ n * float64One / 10 ^ k := by
    rw [Nat.le_div_iff_mul_le hD]
    calc 2 ^ 77 * 10 ^ k = 10 ^ k * 2 ^ 77 := by ring
      _ ≤ float64One := ten_pow_le k hk
      _ ≤ n * float64One := Nat.le_mul_of_pos_left _ hn
  have hspec := bitLength_spec (n * float64One / 10 ^ k)
    (Nat.lt_of_lt_of_le (Nat.two_pow_pos _) hqlow)
  have hbl := bitLength_gt _ 77 hqlow
  generalize hq : n * float64One / 10 ^ k = q at hqa hqlow hum hb1 hb2 hspec hbl
  obtain ⟨-, hs1, -⟩ := hspec
  obtain ⟨t, ht⟩ : ∃ t, bitLength q = t + 53 := ⟨bitLength q - 53, by omega⟩
  have ht1 : bitLength q - 53 = t := by omega
  have ht2 : bitLength q - 1 = t + 52 := by omega
  rw [ht1] at hum hb1 hb2
  rw [ht2, Nat.pow_add] at hs1
  generalize hg : (2 : Nat) ^ t = g at hum hb1 hb2 hs1
  -- the facts in ℚ
  have hdq : (0 : ℚ) < (10 : ℚ) ^ k := by positivity
  have hWq : (0 : ℚ) < (float64One : ℚ) := by exact_mod_cast hWpos
  have hV0 : (2 : ℚ) ^ 77 ≤ (n : ℚ) * float64One / 10 ^ k := by
    rw [le_div_iff₀ hdq]
    have : 2 ^ 77 * 10 ^ k ≤ n * float64One := by
      calc 2 ^ 77 * 10 ^ k ≤ q * 10 ^ k := Nat.mul_le_mul_right _ hqlow
        _ ≤ n * float64One := hqa
    exact_mod_cast this
  have hgV : (g : ℚ) * 2 ^ 52 ≤ (n : ℚ) * float64One / 10 ^ k := by
    rw [le_div_iff₀ hdq]
    have : g * 2 ^ 52 * 10 ^ k ≤ n * float64One :=
      (Nat.mul_le_mul_right _ hs1).trans hqa
    exact_mod_cast this
  have huV1 : (u : ℚ) ≤ (n : ℚ) * float64One / 10 ^ k + g / 2 := by
    have h : (2 : ℚ) * (u * 10 ^ k) ≤ 2 * (n * float64One) + 10 ^ k * g := by
      exact_mod_cast hb1
    rw [← sub_nonneg]
    have e : (n : ℚ) * float64One / 10 ^ k + g / 2 - u =
        (2 * (n * float64One) + 10 ^ k * g - 2 * (u * 10 ^ k)) / (2 * 10 ^ k) := by
      field_simp
      ring
    rw [e]
    exact div_nonneg (by linarith) (by positivity)
  have huV2 : (n : ℚ) * float64One / 10 ^ k ≤ u + g / 2 := by
    have h : (2 : ℚ) * (n * float64One) ≤ 2 * (u * 10 ^ k) + 10 ^ k * g := by
      exact_mod_cast hb2
    rw [← sub_nonneg]
    have e : (u : ℚ) + g / 2 - n * float64One / 10 ^ k =
        (2 * (u * 10 ^ k) + 10 ^ k * g - 2 * (n * float64One)) / (2 * 10 ^ k) := by
      field_simp
      ring
    rw [e]
    exact div_nonneg (by linarith) (by positivity)
  have hKV1 : 20 * ((n : ℚ) * float64One / 10 ^ k) + float64One / 10 ^ k ≤
      K * float64One := by
    have h : ((20 : ℚ) * n + 1) ≤ K * 10 ^ k := by exact_mod_cast h1
    have e : 20 * ((n : ℚ) * float64One / 10 ^ k) + float64One / 10 ^ k =
        (20 * n + 1) * (float64One / 10 ^ k) := by ring
    have e2 : (K : ℚ) * float64One = K * 10 ^ k * (float64One / 10 ^ k) := by
      field_simp
      ring
    rw [e, e2]
    exact mul_le_mul_of_nonneg_right h (le_of_lt (div_pos hWq hdq))
  have hKV2 : (K : ℚ) * float64One + float64One / 10 ^ k ≤
      20 * ((n : ℚ) * float64One / 10 ^ k) + float64One := by
    have h : ((K : ℚ) * 10 ^ k + 1) ≤ 20 * n + 10 ^ k := by exact_mod_cast h2
    have e : 20 * ((n : ℚ) * float64One / 10 ^ k) + float64One =
        (20 * n + 10 ^ k) * (float64One / 10 ^ k) := by
      field_simp
      ring
    have e2 : (K : ℚ) * float64One + float64One / 10 ^ k =
        (K * 10 ^ k + 1) * (float64One / 10 ^ k) := by
      field_simp
      ring
    rw [e, e2]
    exact mul_le_mul_of_nonneg_right h (le_of_lt (div_pos hWq hdq))
  have hVw : 20 * ((n : ℚ) * float64One / 10 ^ k) < 2 ^ 51 * (float64One / 10 ^ k) := by
    have h : ((20 : ℚ) * n) < 2 ^ 51 := by exact_mod_cast hn51
    have e : 20 * ((n : ℚ) * float64One / 10 ^ k) = 20 * n * (float64One / 10 ^ k) := by ring
    rw [e]
    exact mul_lt_mul_of_pos_right h (div_pos hWq hdq)
  generalize hV : (n : ℚ) * float64One / 10 ^ k = V at hV0 hgV huV1 huV2 hKV1 hKV2 hVw
  generalize hw : (float64One : ℚ) / 10 ^ k = w at hKV1 hKV2 hVw
  -- the product
  have hu53 : 2 ^ 53 ≤ 20 * u := by
    have h : (2 : ℚ) ^ 53 ≤ 20 * u := by
      norm_num at hV0 hgV ⊢
      linarith
    exact_mod_cast h
  have hspec' := bitLength_spec (20 * u) (Nat.lt_of_lt_of_le (Nat.two_pow_pos _) hu53)
  have hbl' := bitLength_gt _ 53 hu53
  obtain ⟨-, hs1', -⟩ := hspec'
  obtain ⟨t', ht'⟩ : ∃ t', bitLength (20 * u) = t' + 53 := ⟨bitLength (20 * u) - 53, by omega⟩
  have ht1' : bitLength (20 * u) - 53 = t' := by omega
  have ht2' : bitLength (20 * u) - 1 = t' + 52 := by omega
  rw [ht2', Nat.pow_add] at hs1'
  have hrb := roundHalfEven_bounds (20 * u) (1 * 2 ^ t') (by
    rw [Nat.one_mul]; exact Nat.two_pow_pos _)
  have hdiv : 20 * u / 1 = 20 * u := Nat.div_one _
  rw [Nat.one_mul] at hrb
  generalize hz : roundHalfEven (20 * u) (2 ^ t') * 2 ^ t' = z at hrb
  generalize hg' : (2 : Nat) ^ t' = g' at hrb hs1' hz
  have hz1 : (2 : ℚ) * z ≤ 2 * (20 * u) + g' := by exact_mod_cast hrb.1
  have hz2 : (2 : ℚ) * (20 * u) ≤ 2 * z + g' := by exact_mod_cast hrb.2
  have hgu : (g' : ℚ) * 2 ^ 52 ≤ 20 * u := by exact_mod_cast hs1'
  have hg0 : (0 : ℚ) ≤ g := Nat.cast_nonneg _
  have hg0' : (0 : ℚ) ≤ g' := Nat.cast_nonneg _
  have hzle : (z : ℚ) ≤ K * float64One := by
    norm_num at hV0 hgV hgu hVw ⊢
    linarith
  have hzgt : (K : ℚ) * float64One < z + float64One := by
    norm_num at hV0 hgV hgu hVw ⊢
    linarith
  have hzle' : z ≤ K * float64One := by exact_mod_cast hzle
  have hzgt' : K * float64One < z + float64One := by exact_mod_cast hzgt
  have hK51 : K < 2 ^ 53 := by
    have h53 : (2 : Nat) ^ 51 ≤ 2 ^ 53 := Nat.pow_le_pow_right (by norm_num) (by norm_num)
    have hKD : K ≤ K * 10 ^ k := Nat.le_mul_of_pos_right K hD
    have hone : 1 ≤ 10 ^ k := hD
    by_contra hc
    have hK1 : K * 10 ^ k + 1 ≤ 20 * n + 10 ^ k := h2
    have : (K - 1) * 10 ^ k + 10 ^ k = K * 10 ^ k := by
      have : 1 ≤ K := by omega
      obtain ⟨K', rfl⟩ : ∃ K', K = K' + 1 := ⟨K - 1, by omega⟩
      simp
      ring
    have hk1 : K - 1 ≤ (K - 1) * 10 ^ k := Nat.le_mul_of_pos_right _ hD
    omega
  have hfin := roundUnits_of_lt (20 * u) 1 (by
    rw [hdiv, ht1', Nat.one_mul, hg', hz]
    exact Nat.lt_of_le_of_lt hzle' (float64One_lt_overflow K hK51))
  rw [hdiv, ht1', Nat.one_mul, hg', hz] at hfin
  exact ⟨z, hfin, hzle', hzgt'⟩

theorem ceilTimes20_of_round (u z K : Nat) (hr : roundUnits (20 * u) 1 = some z)
    (h1 : z ≤ K * float64One) (h2 : K * float64One < z + float64One) (hK : K < 2 ^ 63) :
    ceilTimes20 u = (K : Int) := by
  unfold ceilTimes20
  rw [hr]
  simp only
  rw [ceil_units z K float64One float64One_pos h1 h2, if_pos hK]
  rfl

/-- A short decimal numeral goes through the `float64` arithmetic to the ceiling of
its product with 20: at most 300 digits after the point, and the digits, read
as one whole number `n`, with `20 * n < 2^51`. -/
theorem ceilTimes20_decimal (num : List Char) (u : Nat) (hu : parseFloat64 num = some u)
    (hk : (num.dropWhile Char.isDigit).tail.length ≤ 300)
    (hn : 20 * decimalValue (num.takeWhile Char.isDigit ++ (num.dropWhile Char.isDigit).tail)
      < 2 ^ 51) :
    ceilTimes20 u = ⌈decimalNumber num * 20⌉ := by
  have hu0 := hu
  unfold parseFloat64 at hu
  split at hu
  · have hdn : decimalNumber num =
        (decimalValue (num.takeWhile Char.isDigit ++ (num.dropWhile Char.isDigit).tail) : ℚ) /
          10 ^ (num.dropWhile Char.isDigit).tail.length := rfl
    generalize decimalValue (num.takeWhile Char.isDigit ++ (num.dropWhile Char.isDigit).tail)
      = n at hu hn hdn
    generalize (num.dropWhile Char.isDigit).tail.length = k at hu hk hdn
    rcases Nat.eq_zero_or_pos n with hn0 | hnpos
    · subst hn0
      exact ceilTimes20_exact num u 0 0 hu0 (by rw [hdn]; simp) (by norm_num) (by norm_num)
    · have hD : 0 < 10 ^ k := Nat.pos_pow_of_pos k (by norm_num)
      obtain ⟨hc1, hc2, -⟩ := ceilDiv_bounds (20 * n) (10 ^ k) 1 hD Nat.one_pos
      simp only [Nat.mul_one] at hc1 hc2
      generalize (20 * n + (10 ^ k - 1)) / 10 ^ k = K at hc1 hc2
      have hK51 : K < 2 ^ 51 := by
        by_contra hc
        have h1 : 20 * n + 1 ≤ K := by omega
        have h2 : (20 * n + 1) * 10 ^ k ≤ K * 10 ^ k := Nat.mul_le_mul_right _ h1
        have h3 : (20 * n + 1) * 10 ^ k = 20 * n * 10 ^ k + 10 ^ k := by ring
        have h4 : 20 * n ≤ 20 * n * 10 ^ k := Nat.le_mul_of_pos_right _ hD
        omega
      have hK63 : K < 2 ^ 63 := by
        have : (2 : Nat) ^ 51 ≤ 2 ^ 63 := Nat.pow_le_pow_right (by norm_num) (by norm_num)
        omega
      have hceil : ⌈decimalNumber num * 20⌉ = (K : Int) := by
        rw [Int.ceil_eq_iff, hdn]
        have hdq : (0 : ℚ) < (10 : ℚ) ^ k := by positivity
        have e : (n : ℚ) / 10 ^ k * 20 = (20 * n) / 10 ^ k := by ring
        have q1 : ((20 * n : Nat) : ℚ) ≤ ((K * 10 ^ k : Nat) : ℚ) := by exact_mod_cast hc1
        have q2 : ((K * 10 ^ k : Nat) : ℚ) < ((20 * n + 10 ^ k : Nat) : ℚ) := by
          exact_mod_cast hc2
        push_cast at q1 q2
        rw [e]
        constructor
        · rw [lt_div_iff₀ hdq]
          push_cast
          linarith
        · rw [div_le_iff₀ hdq]
          push_cast
          linarith
      rw [hceil]
      rcases Nat.eq_or_lt_of_le hc1 with heq | hlt
      · have hK1 : 1 ≤ K := by
          rcases Nat.eq_zero_or_pos K with h | h
          · subst h; omega
          · exact h
        have h20 : 20 * (n * float64One) = K * float64One * 10 ^ k := by
          calc 20 * (n * float64One) = 20 * n * float64One := by ring
            _ = K * 10 ^ k * float64One := by rw [heq]
            _ = K * float64One * 10 ^ k := by ring
        have hr := roundUnits_twentieth _ _ K u hD h20 hK1 hK51 hu
        exact ceilTimes20_of_round u _ K hr (le_refl _) (by
          have := float64One_pos
          omega) hK63
      · obtain ⟨z, hr, hz1, hz2⟩ := roundUnits_between n k K u hnpos hk hn (by omega)
          (by omega) hu
        exact ceilTimes20_of_round u z K hr hz1 hz2 hK63
  · simp at hu

theorem digit_le_nine (c : Char) (h : c.isDigit = true) : c.toNat - '0'.toNat ≤ 9 := by
  have h2 : c.toNat ≤ 57 := by
    simp only [Char.isDigit, Bool.and_eq_true, decide_eq_true_eq] at h
    exact h.2
  have h0 : '0'.toNat = 48 := rfl
  rw [h0]
  omega

theorem foldl_digits_lt (s : List Char) (acc : Nat) (h : ∀ c ∈ s, c.isDigit = true) :
    s.foldl (fun acc c => 10 * acc + (c.toNat - '0'.toNat)) acc + 1 ≤
      (acc + 1) * 10 ^ s.length := by
  induction s generalizing acc with
  | nil => simp
  | cons c cs ih =>
    have hc := digit_le_nine c (h c (List.mem_cons_self _ _))
    have ih' := ih (10 * acc + (c.toNat - '0'.toNat))
      (fun x hx => h x (List.mem_cons_of_mem _ hx))
    simp only [List.foldl_cons, List.length_cons]
    calc List.foldl (fun acc c => 10 * acc + (c.toNat - '0'.toNat))
          (10 * acc + (c.toNat - '0'.toNat)) cs + 1
        ≤ (10 * acc + (c.toNat - '0'.toNat) + 1) * 10 ^ cs.length := ih'
      _ ≤ (10 * acc + 10) * 10 ^ cs.length := Nat.mul_le_mul_right _ (by omega)
      _ = (acc + 1) * 10 ^ (cs.length + 1) := by ring

theorem decimalValue_lt (s : List Char) (h : ∀ c ∈ s, c.isDigit = true) :
    decimalValue s < 10 ^ s.length := by
  have := foldl_digits_lt s 0 h
  unfold decimalValue
  omega

/-- A numeral of at most 14 digits goes through the `float64` arithmetic to the
ceiling of its product with 20. -/
theorem ceilTimes20_short (num : List Char) (u : Nat) (hu : parseFloat64 num = some u)
    (hlen : (num.takeWhile Char.isDigit ++ (num.dropWhile Char.isDigit).tail).length ≤ 14) :
    ceilTimes20 u = ⌈decimalNumber num * 20⌉ := by
  have hall : ∀ c ∈ num.takeWhile Char.isDigit ++ (num.dropWhile Char.isDigit).tail,
      c.isDigit = true := by
    unfold parseFloat64 at hu
    split at hu
    · rename_i hc
      intro c hmem
      rcases List.mem_append.mp hmem with hm | hm
      · exact List.mem_takeWhile_imp hm
      · exact List.all_eq_true.mp hc.2.1 c hm
    · simp at hu
  have hv := decimalValue_lt _ hall
  have hp : 10 ^ (num.takeWhile Char.isDigit ++ (num.dropWhile Char.isDigit).tail).length
      ≤ 10 ^ 14 := Nat.pow_le_pow_right (by norm_num) hlen
  apply ceilTimes20_decimal num u hu
  · simp only [List.length_append] at hlen
    omega
  · have h14 : 20 * 10 ^ 14 < 2 ^ 51 := by norm_num
    omega

/-! ## The claims -/

/-- C1: for every RequirementSet with at least one group and every price lookup the
step closure returns, the value it adds to `Result.Low` is the minimum of the group
costs, and the value it adds to `Result.High` is their maximum. The group costs are
the values the closure holds in `subcosts`; when every group is a single reagent,
as the parsers produce them, they are the sums over the groups' reagents. -/
theorem stepResolver_low_high (jdata : JournalData) (result : Result)
    (reagentsAll : List (List Reagent)) (hk : 1 ≤ reagentsAll.length) :
    (∃ r lo hi, stepResolver jdata result reagentsAll = some r ∧
      r.Low = goAdd result.Low lo ∧ r.High = goAdd result.High hi ∧
      lo ∈ reagentsAll.map (groupCost jdata) ∧
      (∀ x ∈ reagentsAll.map (groupCost jdata), lo ≤ x) ∧
      hi ∈ reagentsAll.map (groupCost jdata) ∧
      (∀ x ∈ reagentsAll.map (groupCost jdata), x ≤ hi)) ∧
    ((∀ g ∈ reagentsAll, ∃ reagent, g = [reagent]) →
      reagentsAll.map (groupCost jdata) = reagentsAll.map (groupCostSum jdata)) := by
  obtain ⟨lo, hi, mid, h0, h1, -, -, hr⟩ := stepResolver_some jdata result reagentsAll hk
  have hs := sortInts_sorted (reagentsAll.map (groupCost jdata))
  refine ⟨⟨_, lo, hi, hr, rfl, rfl, mem_sortInts.mp (List.getElem?_mem h0), ?_,
    mem_sortInts.mp (List.getElem?_mem h1), ?_⟩, ?_⟩
  · intro x hx
    obtain ⟨n, hn⟩ := List.mem_iff_getElem?.mp (mem_sortInts.mpr hx)
    exact sorted_getElem_le hs (Nat.zero_le n) h0 hn
  · intro x hx
    obtain ⟨n, hn⟩ := List.mem_iff_getElem?.mp (mem_sortInts.mpr hx)
    have hlt : n < (sortInts (reagentsAll.map (groupCost jdata))).length :=
      (List.getElem?_eq_some.mp hn).1
    rw [sortInts_length, List.length_map] at hlt
    exact sorted_getElem_le hs (by omega) hn h1
  · intro hsingle
    apply List.map_congr_left
    intro g hg
    obtain ⟨reagent, rfl⟩ := hsingle g hg
    unfold groupCost groupCostSum
    rw [reagentLoopSum_single]

theorem stepResolver_low_high_witness :
    ∃ r, stepResolver journalAB ⟨"Alchemy", 0, 0, 0, 0, []⟩
        [[⟨"A", 2⟩], [⟨"B", 1⟩]] = some r ∧ r.Low = 7 ∧ r.High = 10 := by
  obtain ⟨⟨r, lo, hi, hr, hlo, hhi, -, -, -, -⟩, -⟩ :=
    stepResolver_low_high journalAB ⟨"Alchemy", 0, 0, 0, 0, []⟩
      [[⟨"A", 2⟩], [⟨"B", 1⟩]] (by decide)
  have hv : stepResolver journalAB ⟨"Alchemy", 0, 0, 0, 0, []⟩ [[⟨"A", 2⟩], [⟨"B", 1⟩]] =
      some ⟨"Alchemy", 7, 10, 8, 0, []⟩ := by decide
  rw [hv] at hr
  cases hr
  exact ⟨_, hv, rfl, rfl⟩

/-- C2 (amended): for every RequirementSet whose groups each hold exactly one
reagent, as both parsers produce them on every line, and every price lookup, the
cost the step closure computes for each group equals the sum over the reagents of
that group of count times unit price, a reagent that is not found having unit
price 0: the slice `subcosts` holds those sums, and each is the count times the
price of the one reagent (on Go ints, the product itself when it fits). -/
theorem groupCost_single_reagent (jdata : JournalData) (reagentsAll : List (List Reagent))
    (notFound : List String) (h : ∀ g ∈ reagentsAll, ∃ reagent, g = [reagent]) :
    (groupLoop jdata reagentsAll notFound).1 = reagentsAll.map (groupCostSum jdata) ∧
    (∀ g ∈ reagentsAll, groupCost jdata g = groupCostSum jdata g) ∧
    (∀ reagent : Reagent, groupCostSum jdata [reagent] =
      goMul reagent.Count ((jdata reagent.Name).getD 0)) ∧
    (∀ c p : Int, -(2 ^ 63) ≤ c * p → c * p < 2 ^ 63 → goMul c p = c * p) ∧
    (∀ s : String, (groupLoop jdata (ParseGeneric s) notFound).1 =
      (ParseGeneric s).map (groupCostSum jdata)) ∧
    (∀ (s : String) (parsed : List (List Reagent)), ParseInscription s = some parsed →
      (groupLoop jdata parsed notFound).1 = parsed.map (groupCostSum jdata)) := by
  have hsum : ∀ (l : List (List Reagent)), (∀ g ∈ l, ∃ reagent, g = [reagent]) →
      (groupLoop jdata l notFound).1 = l.map (groupCostSum jdata) := by
    intro l hl
    rw [← groupLoopSum_singletons jdata l hl notFound]
    exact groupLoopSum_fst jdata l notFound
  refine ⟨hsum reagentsAll h, ?_, ?_, ?_, ?_, ?_⟩
  · intro g hg
    obtain ⟨reagent, rfl⟩ := h g hg
    unfold groupCost groupCostSum
    rw [reagentLoopSum_single]
  · intro reagent
    unfold groupCostSum
    simp only [reagentLoopSum]
    cases jdata reagent.Name with
    | none => simp [goMul, wrapInt]
    | some market => simp only [goMul, wrapInt_zero_add, Option.getD_some]
  · intro c p h1 h2
    exact wrapInt_of_range h1 h2
  · intro s
    exact hsum _ (ParseGeneric_singletons s)
  · intro s parsed hp
    exact hsum _ (ParseInscription_singletons s parsed hp)

theorem groupCost_single_reagent_witness :
    (groupLoop journalAB [[⟨"A", 40⟩], [⟨"B", 40⟩]] []).1 = [200, 280] := by
  have h := (groupCost_single_reagent journalAB [[⟨"A", 40⟩], [⟨"B", 40⟩]] []
    (by
      intro g hg
      simp only [List.mem_cons, List.mem_singleton, List.not_mem_nil, or_false] at hg
      rcases hg with rfl | rfl
      · exact ⟨_, rfl⟩
      · exact ⟨_, rfl⟩)).1
  rw [h]
  decide

/-- C2 (counterexample): for the group `{A, 1}, {B, 1}` and the journal data
`{A: 5, B: 7}` the step closure stores the cost `7`, the cost of the last reagent
found, where the sum over the reagents of the group is `12`. -/
theorem groupCost_overwrites :
    groupCost journalAB [⟨"A", 1⟩, ⟨"B", 1⟩] = 7 ∧
    groupCostSum journalAB [⟨"A", 1⟩, ⟨"B", 1⟩] = 12 ∧
    stepResolver journalAB ⟨"Leatherworking", 0, 0, 0, 0, []⟩ [[⟨"A", 1⟩, ⟨"B", 1⟩]] =
      some ⟨"Leatherworking", 7, 7, 7, 0, []⟩ := by
  decide

/-- C3 (the code at the failing input): on an empty RequirementSet the step closure
indexes the empty slice `subcosts` at line 279 and panics, whatever the price lookup
and the running result; it does not leave the result unchanged. A guide line
without a bracket token, on which `ParseGeneric` returns the empty set, is such an
input. -/
theorem stepResolver_empty_panics (jdata : JournalData) (result : Result) :
    stepResolver jdata result [] = none ∧
    ParseGeneric "Visit your trainer" = [] ∧
    eachLi genericParser jdata result ["Visit your trainer"] = none := by
  have h : ParseGeneric "Visit your trainer" = [] := by decide
  refine ⟨rfl, h, ?_⟩
  simp only [eachLi, genericParser, h]
  rfl

/-- C4: for every RequirementSet with `n ≥ 1` groups, with `cs` the ascending-sorted
list of its group costs, the step closure returns; when `n > 2` the value it adds to
`Result.Median` is `cs[n/2]`, and when `n` is 1 or 2 it is `(cs[0] + cs[n-1]) / 2`
computed on Go ints, which is the truncated quotient of the sum whenever the sum
fits an `int`. -/
theorem stepResolver_median (jdata : JournalData) (result : Result)
    (reagentsAll : List (List Reagent)) (hn : 1 ≤ reagentsAll.length) :
    List.Sorted (· ≤ ·) (sortInts (reagentsAll.map (groupCost jdata))) ∧
    (sortInts (reagentsAll.map (groupCost jdata))).Perm (reagentsAll.map (groupCost jdata)) ∧
    ∃ r, stepResolver jdata result reagentsAll = some r ∧
      (2 < reagentsAll.length →
        ∃ mid, (sortInts (reagentsAll.map (groupCost jdata)))[reagentsAll.length / 2]? = some mid ∧
          r.Median = goAdd result.Median mid) ∧
      (reagentsAll.length ≤ 2 →
        ∃ lo hi, (sortInts (reagentsAll.map (groupCost jdata)))[0]? = some lo ∧
          (sortInts (reagentsAll.map (groupCost jdata)))[reagentsAll.length - 1]? = some hi ∧
          r.Median = goAdd result.Median (goDiv (goAdd lo hi) 2) ∧
          (-(2 ^ 63) ≤ lo + hi → lo + hi < 2 ^ 63 →
            goDiv (goAdd lo hi) 2 = Int.tdiv (lo + hi) 2)) := by
  obtain ⟨lo, hi, mid, h0, h1, h2, -, hr⟩ := stepResolver_some jdata result reagentsAll hn
  refine ⟨sortInts_sorted _, sortInts_perm _, _, hr, ?_, ?_⟩
  · intro h
    exact ⟨mid, h2, by simp [h]⟩
  · intro h
    have h' : ¬ 2 < reagentsAll.length := by omega
    exact ⟨lo, hi, h0, h1, by simp [h'], fun a b => goDiv_goAdd_two a b⟩

theorem stepResolver_median_witness :
    ∃ r, stepResolver journalAB ⟨"Inscription", 0, 0, 0, 0, []⟩
        [[⟨"A", 40⟩], [⟨"B", 40⟩]] = some r ∧ r.Median = 240 := by
  obtain ⟨-, -, r, hr, -, h2⟩ := stepResolver_median journalAB
    ⟨"Inscription", 0, 0, 0, 0, []⟩ [[⟨"A", 40⟩], [⟨"B", 40⟩]] (by decide)
  obtain ⟨lo, hi, hlo, hhi, hmed, -⟩ := h2 (by decide)
  have hlo' : some lo = some 200 := hlo.symm.trans (by decide)
  have hhi' : some hi = some 280 := hhi.symm.trans (by decide)
  cases hlo'
  cases hhi'
  exact ⟨r, hr, by rw [hmed]; decide⟩

/-- C5: for every RequirementSet the loops of a step append to `NotFound` exactly
the names of its absent reagents, in the order met, one entry per occurrence;
so for every sequence of guide lines on which the parser yields a non-empty
RequirementSet, and every price lookup, the loop over the lines returns and the
`NotFound` list it leaves is the one it started with followed by the names of
the absent reagents of all the lines, and that is the profession's `NotFound`
list; an absent reagent contributes nothing to the cost of its group (the cost
is that of the group without its absent reagents, and `0` when every reagent of
the group is absent). -/
theorem notFound_accumulates (parser : ReagentParser) (jdata : JournalData) (result : Result)
    (lis : List String)
    (h : ∀ s ∈ lis, ∃ reagentsAll, parser s = some reagentsAll ∧ reagentsAll ≠ []) :
    (∃ r, eachLi parser jdata result lis = some r ∧
      r.NotFound = result.NotFound ++
        (lis.map (fun s => absentNames jdata ((parser s).getD []))).flatten) ∧
    (∃ r, professionResult parser jdata result.Name lis = some r ∧
      r.NotFound = (lis.map (fun s => absentNames jdata ((parser s).getD []))).flatten) ∧
    (∀ (reagentsAll : List (List Reagent)) (notFound : List String),
      (groupLoop jdata reagentsAll notFound).2 = notFound ++ absentNames jdata reagentsAll) ∧
    (∀ reagents : List Reagent, groupCost jdata reagents =
      groupCost jdata (reagents.filter (fun reagent => (jdata reagent.Name).isSome))) ∧
    (∀ reagents : List Reagent, (∀ reagent ∈ reagents, jdata reagent.Name = none) →
      groupCost jdata reagents = 0) :=
  ⟨eachLi_notFound parser jdata result lis h,
   professionResult_notFound parser jdata result.Name lis h,
   fun reagentsAll notFound => groupLoop_snd jdata reagentsAll notFound,
   fun reagents => reagentLoop_filter jdata reagents (0, []),
   fun reagents hr => reagentLoop_absent jdata reagents (0, []) hr⟩

theorem notFound_accumulates_witness :
    (∀ s ∈ ["[Widget] or [Gadget]", "2 x [Gadget]"],
      ∃ reagentsAll, genericParser s = some reagentsAll ∧ reagentsAll ≠ []) ∧
    (∃ r, professionResult genericParser journalWidget "Alchemy"
        ["[Widget] or [Gadget]", "2 x [Gadget]"] = some r ∧
      r.NotFound = ["Gadget", "Gadget"]) :=
  have h : ∀ s ∈ ["[Widget] or [Gadget]", "2 x [Gadget]"],
      ∃ reagentsAll, genericParser s = some reagentsAll ∧ reagentsAll ≠ [] := by
    intro s hs
    simp only [List.mem_cons, List.mem_singleton, List.not_mem_nil, or_false] at hs
    rcases hs with rfl | rfl
    · exact ⟨_, rfl, by decide⟩
    · exact ⟨_, rfl, by decide⟩
  ⟨h, by
    obtain ⟨r, hr, hnf⟩ := (notFound_accumulates genericParser journalWidget
      ⟨"Alchemy", 0, 0, 0, 0, []⟩ ["[Widget] or [Gadget]", "2 x [Gadget]"] h).2.1
    refine ⟨r, hr, ?_⟩
    rw [hnf]
    decide⟩

/-- C6 (amended): for every input line `ParseGeneric` returns exactly one
singleton group per token `<digits> x [name]` or `[name]` of the line, in order of
occurrence: the occurrences are those met scanning from the left, a token
starting at the first position where one can start and ending at the first `]`
on the same line of text. The count is the value of the digits when they are
present, below `2^63` and not zero, and `1` when they are absent or zero; the name
is the bracket contents without its leading and trailing blanks. In particular
on a line made of stretches of text without `[`, each followed by a token, the
groups are those of the tokens. `[Widget]` parses to `{Widget, 1}` and
`5 x [Widget]` to `{Widget, 5}`, which with the journal data `{Widget: 10}` give
the step statistics `10, 10, 10` and `50, 50, 50`. -/
theorem ParseGeneric_tokens (s : String) :
    (∃ ts, Occurrences ItemAt s.data ts ∧
      ParseGeneric s = ts.map (fun a => [⟨String.mk (trimSpaces a.2),
        if toInt64 a.1 = 0 then 1 else toInt64 a.1⟩])) ∧
    (∀ ts ts', Occurrences ItemAt s.data ts → Occurrences ItemAt s.data ts' → ts = ts') ∧
    toInt64 [] = 0 ∧
    (∀ digits : List Char, (∀ c ∈ digits, c.isDigit = true) → decimalValue digits < 2 ^ 63 →
      toInt64 digits = (decimalValue digits : Int)) ∧
    (∀ name : List Char, ∃ a b,
      name = List.replicate a ' ' ++ trimSpaces name ++ List.replicate b ' ' ∧
      (trimSpaces name).head? ≠ some ' ' ∧ (trimSpaces name).getLast? ≠ some ' ') ∧
    (∀ (segs : List ItemSegment) (tail : List Char), (∀ g ∈ segs, g.Valid) → '[' ∉ tail →
      ParseGeneric (String.mk ((segs.map ItemSegment.text).flatten ++ tail)) =
        segs.map (fun g => [⟨String.mk (trimSpaces g.name),
          if decimalValue g.digits = 0 then 1 else (decimalValue g.digits : Int)⟩])) ∧
    ParseGeneric "[Widget]" = [[⟨"Widget", 1⟩]] ∧
    ParseGeneric "5 x [Widget]" = [[⟨"Widget", 5⟩]] ∧
    stepStats (sortInts ((ParseGeneric "[Widget]").map (groupCost journalWidget))) =
      some ⟨10, 10, 10⟩ ∧
    stepStats (sortInts ((ParseGeneric "5 x [Widget]").map (groupCost journalWidget))) =
      some ⟨50, 50, 50⟩ :=
  ⟨⟨_, findAllItems_occurrences s.length s.data (le_refl _), rfl⟩,
    fun _ _ h h' => Occurrences.unique itemAt_functional h h',
    by decide, toInt64_digits, trimSpaces_spec, ParseGeneric_segments,
    by decide, by decide, by decide, by decide⟩

theorem ParseGeneric_tokens_witness :
    ParseGeneric "60 x [Blackened Dragonscale] OR [ Savage Leather ] | 2 x Volatile Air" =
      [[⟨"Blackened Dragonscale", 60⟩], [⟨"Savage Leather", 1⟩]] :=
  (ParseGeneric_tokens "").2.2.2.2.2.1
    [⟨[], "60".toList, "Blackened Dragonscale".toList⟩,
     ⟨" OR ".toList, [], " Savage Leather ".toList⟩]
    " | 2 x Volatile Air".toList (by decide) (by decide)

/-- C6 (counterexample): a count of zero is not kept, `0 x [Widget]` parses to the
count `1`; and a tab around the name is not trimmed. -/
theorem ParseGeneric_zero_count :
    toInt64 "0".toList = 0 ∧
    ParseGeneric "0 x [Widget]" = [[⟨"Widget", 1⟩]] ∧
    ParseGeneric "0 x [Widget]" ≠ [[⟨"Widget", 0⟩]] ∧
    ParseGeneric "[\tWidget]" = [[⟨"\tWidget", 1⟩]] := by
  decide

/-- C7 (the code at the failing input): on a line `inscriptRe` does not match,
`ParseInscription` indexes the empty `allmatches` at line 123 and panics: so it
does on every line where the pattern matches at no position, among them every
line without a digit or a dot. When the pattern matches and `ParseFloat` rejects
the number, it does return the empty RequirementSet, and so does `ParseGeneric`
on every line without a token, among them every line without a `[`. -/
theorem ParseInscription_no_match_panics :
    ParseInscription "Ink of the Sea" = none ∧
    (∀ s : String, (∀ t, t <:+ s.data → ∀ a, ¬ InscriptAt t a) → ParseInscription s = none) ∧
    (∀ s : String, (∀ c ∈ s.data, isNumDot c = false) → ParseInscription s = none) ∧
    (∀ (s : String) (num list : List Char), FirstOccurrence InscriptAt s.data (num, list) →
      parseFloat64 num = none → ParseInscription s = some []) ∧
    (∀ s : String, (∀ t, t <:+ s.data → ∀ a r, ¬ ItemAt t a r) → ParseGeneric s = []) ∧
    (∀ s : String, '[' ∉ s.data → ParseGeneric s = []) :=
  ⟨by decide, ParseInscription_no_match, ParseInscription_no_numDot,
    ParseInscription_bad_number, ParseGeneric_no_token, ParseGeneric_no_bracket⟩

/-- C8 (amended): on every line `inscriptRe` matches (`<number> stacks ... following:
<list>`, the match the leftmost one, the list the rest of the line after the last
`following: `) and whose number `ParseFloat` accepts, `ParseInscription` returns one
singleton group per bracketed name `[name]` of the list, in order of occurrence,
each with the quantity `int(math.Ceil(stacksf * 20))` computed on `float64`. That
quantity is the ceiling of the number times 20 whenever the numeral has at most
14 digits; more generally whenever it has at most 300 digits after the point and
its digits, read as one whole number `n`, satisfy `20 * n < 2^51`; and whenever
the number is a binary fraction `a / 2^j` with `j ≤ 1074` and `20 * a < 2^53`. In
particular, when no digit or dot comes before the number and the list is made of
stretches of text without `[`, each followed by a bracketed name, the groups are
those of the names. `2 stacks of the following: [A][B]` yields `{A, 40}` and
`{B, 40}`, and with the journal data `{A: 5, B: 7}` the group costs `200` and `280`
and the step statistics `200, 280, 240`. -/
theorem ParseInscription_stacks (s : String) (num list : List Char) (u : Nat)
    (names : List (List Char)) (hfirst : FirstOccurrence InscriptAt s.data (num, list))
    (hu : parseFloat64 num = some u) (hn : Occurrences BracketAt list names) :
    ParseInscription s = some (names.map (fun name => [⟨String.mk name, ceilTimes20 u⟩])) ∧
    (∀ names', Occurrences BracketAt list names' → names' = names) ∧
    (∀ a j : Nat, decimalNumber num = (a : ℚ) / 2 ^ j → j ≤ 1074 → 20 * a < 2 ^ 53 →
      ceilTimes20 u = ⌈decimalNumber num * 20⌉) ∧
    ((num.takeWhile Char.isDigit ++ (num.dropWhile Char.isDigit).tail).length ≤ 14 →
      ceilTimes20 u = ⌈decimalNumber num * 20⌉) ∧
    ((num.dropWhile Char.isDigit).tail.length ≤ 300 →
      20 * decimalValue (num.takeWhile Char.isDigit ++ (num.dropWhile Char.isDigit).tail)
        < 2 ^ 51 →
      ceilTimes20 u = ⌈decimalNumber num * 20⌉) ∧
    (∀ (pre mid tail rest : List Char) (named : List (List Char × List Char)),
      (∀ c ∈ pre, isNumDot c = false) → '\n' ∉ mid →
      (∀ g ∈ named, '[' ∉ g.1 ∧ ']' ∉ g.2) → '[' ∉ tail →
      '\n' ∉ bracketedText named ++ tail →
      ¬ followingLit <:+: (bracketedText named ++ tail) →
      (rest = [] ∨ rest.head? = some '\n') →
      ParseInscription (String.mk (pre ++ (num ++ (stacksLit ++ (mid ++ (followingLit ++
          ((bracketedText named ++ tail) ++ rest))))))) =
        some (named.map (fun g => [⟨String.mk g.2, ceilTimes20 u⟩]))) ∧
    ParseInscription "2 stacks of the following: [A][B]" =
      some [[⟨"A", 40⟩], [⟨"B", 40⟩]] ∧
    [[(⟨"A", 40⟩ : Reagent)], [⟨"B", 40⟩]].map (groupCost journalAB) = [200, 280] ∧
    stepStats (sortInts ([[(⟨"A", 40⟩ : Reagent)], [⟨"B", 40⟩]].map (groupCost journalAB))) =
      some ⟨200, 280, 240⟩ :=
  ⟨ParseInscription_first s num list u names hfirst hu hn,
    fun _ h => Occurrences.unique bracketAt_functional h hn,
    fun a j hdy hj ha => ceilTimes20_exact num u a j hu hdy hj ha,
    fun hlen => ceilTimes20_short num u hu hlen,
    fun hk h51 => ceilTimes20_decimal num u hu hk h51,
    fun pre mid tail rest named hp hm hv ht hl hf hr =>
      ParseInscription_line pre num mid tail rest named u hp hu hm hv ht hl hf hr,
    by decide!, by decide, by decide⟩

theorem ParseInscription_stacks_witness :
    ParseInscription
        "Buy 2.5 stacks of one of the following: [Ink of the Sea] or [Blackfallow Ink]\nnext" =
      some [[⟨"Ink of the Sea", 50⟩], [⟨"Blackfallow Ink", 50⟩]] ∧
    ceilTimes20 (5 * 2 ^ 1073) = ⌈decimalNumber "2.5".toList * 20⌉ ∧
    ⌈decimalNumber "2.5".toList * 20⌉ = 50 :=
  have hl : findAllBracketed 37 "[Ink of the Sea] or [Blackfallow Ink]".toList =
      ["Ink of the Sea".toList, "Blackfallow Ink".toList] := by decide
  have h := ParseInscription_stacks
    "Buy 2.5 stacks of one of the following: [Ink of the Sea] or [Blackfallow Ink]\nnext"
    "2.5".toList "[Ink of the Sea] or [Blackfallow Ink]".toList (5 * 2 ^ 1073)
    ["Ink of the Sea".toList, "Blackfallow Ink".toList]
    (findInscript_first _ _ (by decide)) (by decide!)
    (hl ▸ findAllBracketed_occurrences 37 _ (by decide))
  ⟨by
    have h1 := h.1
    have e : ceilTimes20 (5 * 2 ^ 1073) = 50 := by decide!
    rw [e] at h1
    exact h1,
   h.2.2.1 5 1 (by decide!) (by decide) (by decide),
   (h.2.2.2.1 (by decide)).symm.trans (by decide!)⟩

/-- C8 (counterexample): the numeral `0.55000000000000001` is read as the `float64`
nearest to it, `4953959590107546 * 2^-53`, whose product with 20 is rounded to
`11.0`; so the quantity is `11`, where the ceiling of the number times 20 is `12`,
and so is the ceiling of the exact product of that `float64` with 20. -/
theorem ParseInscription_long_numeral :
    ParseInscription "0.55000000000000001 stacks of the following: [A]" =
      some [[⟨"A", 11⟩]] ∧
    ⌈decimalNumber "0.55000000000000001".toList * 20⌉ = 12 ∧
    parseFloat64 "0.55000000000000001".toList = some (4953959590107546 * 2 ^ 1021) ∧
    ⌈((4953959590107546 * 2 ^ 1021 : Nat) : ℚ) / ((2 ^ 1074 : Nat) : ℚ) * 20⌉ = 12 := by
  refine ⟨by decide!, by decide!, by decide!, by decide!⟩

/-- C9: for every RequirementSet with more than two groups and every price lookup,
the step closure returns and the three values it adds to the running result,
taken from the sorted slice, satisfy `low ≤ median ≤ high`. -/
theorem stepStats_ordered (jdata : JournalData) (result : Result)
    (reagentsAll : List (List Reagent)) (hn : 2 < reagentsAll.length) :
    ∃ st r, stepStats (sortInts (reagentsAll.map (groupCost jdata))) = some st ∧
      stepResolver jdata result reagentsAll = some r ∧
      r.Low = goAdd result.Low st.low ∧ r.Median = goAdd result.Median st.median ∧
      r.High = goAdd result.High st.high ∧
      st.low ≤ st.median ∧ st.median ≤ st.high := by
  obtain ⟨lo, hi, mid, h0, h1, h2, hst, hr⟩ :=
    stepResolver_some jdata result reagentsAll (by omega)
  have hs := sortInts_sorted (reagentsAll.map (groupCost jdata))
  refine ⟨_, _, hst, hr, rfl, rfl, rfl, ?_, ?_⟩
  · simp only [hn, if_true]
    exact sorted_getElem_le hs (Nat.zero_le _) h0 h2
  · simp only [hn, if_true]
    exact sorted_getElem_le hs (by omega) h2 h1

theorem stepStats_ordered_witness :
    ∃ st r, stepStats (sortInts ([[(⟨"A", 3⟩ : Reagent)], [⟨"B", 1⟩], [⟨"C", 2⟩]].map
        (groupCost (fun _ => some 5)))) = some st ∧
      stepResolver (fun _ => some 5) ⟨"Alchemy", 0, 0, 0, 0, []⟩
        [[⟨"A", 3⟩], [⟨"B", 1⟩], [⟨"C", 2⟩]] = some r ∧
      r.Low = goAdd 0 st.low ∧ r.Median = goAdd 0 st.median ∧
      r.High = goAdd 0 st.high ∧
      st.low ≤ st.median ∧ st.median ≤ st.high :=
  stepStats_ordered (fun _ => some 5) ⟨"Alchemy", 0, 0, 0, 0, []⟩
    [[⟨"A", 3⟩], [⟨"B", 1⟩], [⟨"C", 2⟩]] (by decide)

/-- C10: on every line both parsers return only groups of exactly one reagent
(whenever `ParseInscription` returns); the cost the step closure stores for a
group by assignment is the count times the price of the last reagent found, `0`
if none is found, and on a group of one reagent that is the sum over the group's
reagents; so on every parser output the step closure of `main` and the summing
resolver give the same result, and with it the same low, high and median. -/
theorem parsers_singleton_groups (s : String) :
    (∀ g ∈ ParseGeneric s, ∃ r, g = [r]) ∧
    (∀ reagentsAll, ParseInscription s = some reagentsAll → ∀ g ∈ reagentsAll, ∃ r, g = [r]) ∧
    (∀ (jdata : JournalData) (reagents : List Reagent), groupCost jdata reagents =
      match (reagents.filter (fun reagent => (jdata reagent.Name).isSome)).getLast? with
      | some reagent => goMul reagent.Count ((jdata reagent.Name).getD 0)
      | none => 0) ∧
    (∀ (jdata : JournalData) (r : Reagent), groupCost jdata [r] = groupCostSum jdata [r]) ∧
    (∀ (jdata : JournalData) (result : Result),
      stepResolver jdata result (ParseGeneric s) =
        stepResolverSum jdata result (ParseGeneric s)) ∧
    (∀ (jdata : JournalData) (result : Result) (reagentsAll : List (List Reagent)),
      ParseInscription s = some reagentsAll →
        stepResolver jdata result reagentsAll = stepResolverSum jdata result reagentsAll) :=
  ⟨ParseGeneric_singletons s, ParseInscription_singletons s,
    fun jdata reagents => reagentLoop_last_found jdata reagents (0, []),
    fun jdata r => by
      unfold groupCost groupCostSum
      rw [reagentLoopSum_single],
    fun jdata result =>
      (stepResolverSum_singletons jdata result _ (ParseGeneric_singletons s)).symm,
    fun jdata result reagentsAll h =>
      (stepResolverSum_singletons jdata result _ (ParseInscription_singletons s _ h)).symm⟩

end ProfessionCost
